import Mathlib

/-! # QR decomposition by Householder reflections (`qr.c`)

A shallow embedding of the matrix and vector routines of `qr.c` and of its
`householder` driver, followed by the properties proved about them.

* A `mat` is the contents of a C `struct matrix_type`: the two dimensions and
  the cells `v[i][j]`, read by index.  Only the cells with `i < m` and `j < n`
  belong to the matrix; every statement below speaks about those cells only.
* The routines that compute a matrix (`matrix_mul`, `matrix_minor`, `vmul`,
  `matrix_transpose`) are functions on these contents.  `householder`, which
  passes matrices by pointer and releases them with `matrix_delete`, runs on a
  `heap`: a pointer is an address, and reading through a pointer whose matrix
  was released, or through a slot of `q` that was never assigned, is a failure.
* The `double` buffers the vector routines work on are named cells of a
  `store`, so that a call may pass the same buffer as input and as output.
* The scalar type `K` is a parameter, and so is the square root used by
  `vnorm`: the definitions run on `ℚ`, the theorems about exact real
  arithmetic take `K = ℝ` and `Real.sqrt`.
* Division is that of `K`, where the doubles of C give NaN or an infinity for
  a zero divisor.  A run records the norms it divides by (`divs`), and what
  depends on a quotient is stated for the steps whose divisors are not zero.
* A counting loop `for (i = lo; i < hi; i++)` inside a routine is a left fold
  over the list of its indices; the two loops of `householder` are given by
  their state after a number of iterations.
-/

namespace QR

/-! ## The data model -/

/-- The C `struct matrix_type`: `m` rows, `n` columns and the cells `v[i][j]`. -/
structure mat (K : Type) where
  m : Nat
  n : Nat
  v : Nat → Nat → K

/-- The assignment `x->v[i][j] = a`. -/
def mat.set {K : Type} (x : mat K) (i j : Nat) (a : K) : mat K :=
  { x with v := fun p q => if p = i ∧ q = j then a else x.v p q }

/-- Named `double` buffers: `s b i` is the cell `b[i]`. -/
abbrev store (B K : Type) := B → Nat → K

/-- The assignment `c[i] = a` in a store. -/
def store.write {B K : Type} [DecidableEq B] (s : store B K) (c : B) (i : Nat) (a : K) :
    store B K :=
  fun b j => if b = c ∧ j = i then a else s b j

/-! ## Matrix functions -/

/-- The C function `matrix_new`: the `calloc`ed, zero-filled `m × n` matrix. -/
def matrix_new {K : Type} [Zero K] (m n : Nat) : mat K :=
  { m := m, n := n, v := fun _ _ => 0 }

/-- The C function `matrix_transpose`: for every `i < m->m` and `j < i`, swap `v[i][j]` and
`v[j][i]`, in place.  There is no test of the shape. -/
def matrix_transpose {K : Type} (m : mat K) : mat K :=
  (List.range m.m).foldl (fun m i =>
    (List.range i).foldl (fun m j =>
      let t := m.v i j
      (m.set i j (m.v j i)).set j i t) m) m

/-- The C function `matrix_mul`: the null pointer (`none`) when `x->n != y->m`, else the triple
loop `r->v[i][j] += x->v[i][k] * y->v[k][j]` on a zero-filled matrix. -/
def matrix_mul {K : Type} [Zero K] [Add K] [Mul K] (x y : mat K) : Option (mat K) :=
  if x.n ≠ y.m then none
  else some ((List.range x.m).foldl (fun r i =>
    (List.range y.n).foldl (fun r j =>
      (List.range x.n).foldl (fun r k =>
        r.set i j (r.v i j + x.v i k * y.v k j)) r) r) (matrix_new x.m y.n))

/-- The C function `matrix_minor`: a zero-filled matrix of the shape of `x`, then
`m->v[i][i] = 1` for `i < d`, then the cells with `d ≤ i` and `d ≤ j` copied
from `x`. -/
def matrix_minor {K : Type} [Zero K] [One K] (x : mat K) (d : Nat) : mat K :=
  let m : mat K := matrix_new x.m x.n
  let m := (List.range d).foldl (fun m i => m.set i i 1) m
  (List.range' d (x.m - d)).foldl (fun m i =>
    (List.range' d (x.n - d)).foldl (fun m j => m.set i j (x.v i j)) m) m

/-! ## Vector functions -/

/-- The C function `vmadd(a, b, s, c, n)`: `c[i] = a[i] + s * b[i]` for `i = 0 .. n-1`, in this
order, on buffers that may be the same. -/
def vmadd {B K : Type} [DecidableEq B] [Add K] [Mul K]
    (mem : store B K) (a b : B) (s : K) (c : B) (n : Nat) : store B K :=
  (List.range n).foldl (fun mem i => mem.write c i (mem a i + s * mem b i)) mem

/-- The C function `vmul(v, n)`: a zero-filled `n × n` matrix, then `x->v[i][j] = -2 * v[i] * v[j]`
for all `i, j < n`, then `x->v[i][i] += 1`. -/
def vmul {B K : Type} [Ring K] (mem : store B K) (v : B) (n : Nat) : mat K :=
  let x : mat K := matrix_new n n
  let x := (List.range n).foldl (fun x i =>
    (List.range n).foldl (fun x j => x.set i j (-2 * mem v i * mem v j)) x) x
  (List.range n).foldl (fun x i => x.set i i (x.v i i + 1)) x

/-- The C function `vnorm(x, n)`: `sqrt` of the sum of the `x[i] * x[i]`, accumulated from 0. -/
def vnorm {B K : Type} [Zero K] [Add K] [Mul K] (sqrt : K → K)
    (mem : store B K) (x : B) (n : Nat) : K :=
  sqrt ((List.range n).foldl (fun sum i => sum + mem x i * mem x i) 0)

/-- The C function `vdiv(x, d, y, n)`: `y[i] = x[i] / d` for `i = 0 .. n-1`.  The
quotient is that of the scalars `K`; for `d = 0` the doubles of C give no number
(NaN or an infinity), so what is stated about entries computed from a quotient
assumes that the divisor is not zero. -/
def vdiv {B K : Type} [DecidableEq B] [Div K]
    (mem : store B K) (x : B) (d : K) (y : B) (n : Nat) : store B K :=
  (List.range n).foldl (fun mem i => mem.write y i (mem x i / d)) mem

/-- The C function `mcol(m, v, c)`: `v[i] = m->v[i][c]` for every row `i` of `m`. -/
def mcol {B K : Type} [DecidableEq B] (m : mat K) (mem : store B K) (v : B) (c : Nat) :
    store B K :=
  (List.range m.m).foldl (fun mem i => mem.write v i (m.v i c)) mem

/-! ## Storage

`matrix_new` obtains a matrix from `malloc` and `matrix_delete` gives it back;
`householder` passes matrices around by pointer.  A pointer is an address in a
heap of matrices.  Allocation takes the next fresh address, so an address is
never handed out twice, and a pointer whose matrix was released refers to
nothing: reading through it is a failure. -/

/-- The matrices in dynamic storage: `cells p` is the matrix at the address `p`
(`none` when nothing is allocated there, or no longer), `next` the next fresh
address. -/
structure heap (K : Type) where
  cells : Nat → Option (mat K)
  next : Nat

/-- Reading the matrix a pointer refers to. -/
def heap.load {K : Type} (h : heap K) (p : Nat) : Option (mat K) := h.cells p

/-- A newly allocated matrix with the given contents, and its address. -/
def heap.alloc {K : Type} (h : heap K) (x : mat K) : heap K × Nat :=
  ({ cells := Function.update h.cells h.next (some x), next := h.next + 1 }, h.next)

/-- Overwriting in place the matrix a pointer refers to. -/
def heap.put {K : Type} (h : heap K) (p : Nat) (x : mat K) : Option (heap K) :=
  (h.cells p).map (fun _ => { h with cells := Function.update h.cells p (some x) })

/-- The C function `matrix_delete(m)`: it reads `m->v` and releases the storage. -/
def matrix_delete {K : Type} (h : heap K) (p : Nat) : Option (heap K) :=
  (h.cells p).map (fun _ => { h with cells := Function.update h.cells p none })

/-- A call `matrix_minor(x, d)` on a pointer: the result is a new matrix. -/
def heap.minor {K : Type} [Zero K] [One K] (h : heap K) (x d : Nat) : Option (heap K × Nat) :=
  (h.load x).map (fun xv => h.alloc (matrix_minor xv d))

/-- A call `matrix_mul(x, y)` on pointers: the result is a new matrix; a null
result is a failure as soon as it is produced (every use `householder` makes of
it reads through it). -/
def heap.mul {K : Type} [Zero K] [Add K] [Mul K] (h : heap K) (x y : Nat) :
    Option (heap K × Nat) :=
  (h.load x).bind (fun xv => (h.load y).bind (fun yv =>
    (matrix_mul xv yv).map (fun r => h.alloc r)))

/-- A call `matrix_transpose(m)` on a pointer, in place. -/
def heap.transpose {K : Type} (h : heap K) (p : Nat) : Option (heap K) :=
  (h.load p).bind (fun x => h.put p (matrix_transpose x))

/-- The heap in which `main` calls `householder`: the input matrix alone, at
address 0. -/
def heap_of {K : Type} (A : mat K) : heap K :=
  { cells := fun p => if p = 0 then some A else none, next := 1 }

/-! ## The Householder driver -/

/-- The two local arrays `double e[m->m], x[m->m]` of the loop body. -/
inductive hbuf where
  | e
  | x
deriving DecidableEq

/-- The variables of `householder` that live across iterations of its first
loop: the heap, the pointer `z` to the working matrix, the array `mat q[m->m]`
of pointers (a slot is `none` until it is assigned), and `divs`, a record of the
values `vdiv` has divided by. -/
structure hstate (K : Type) where
  h : heap K
  z : Nat
  q : Nat → Option Nat
  divs : List K

/-- One run of the body of the first loop, for the index `k`; `pm` is the
pointer `m` to the input.  The two local arrays start as zeros; every cell is
written before it is read. -/
def householder_body {K : Type} [LinearOrderedField K] (sqrt : K → K) (pm : Nat)
    (st : hstate K) (k : Nat) : Option (hstate K) :=
  -- the reads of `m->m` and `m->v[k][k]` below
  (st.h.load pm).bind (fun m =>
  -- z1 = matrix_minor(z, k);
  (st.h.minor st.z k).bind (fun (h1, z1) =>
  -- if (z != m) matrix_delete(z);
  (if st.z ≠ pm then matrix_delete h1 st.z else some h1).bind (fun h2 =>
  -- z = z1; and the reads of `z` by `mcol`
  (h2.load z1).bind (fun z =>
    -- mcol(z, x, k);
    let mem : store hbuf K := mcol z (fun _ _ => 0) hbuf.x k
    -- a = vnorm(x, m->m); if (m->v[k][k] > 0) a = -a;
    let a := vnorm sqrt mem hbuf.x m.m
    let a := if m.v k k > 0 then -a else a
    -- for (int i = 0; i < m->m; i++) e[i] = (i == k) ? 1 : 0;
    let mem := (List.range m.m).foldl (fun mem i =>
      mem.write hbuf.e i (if i = k then 1 else 0)) mem
    -- vmadd(x, e, a, e, m->m);
    let mem := vmadd mem hbuf.x hbuf.e a hbuf.e m.m
    -- vdiv(e, vnorm(e, m->m), e, m->m);
    let d := vnorm sqrt mem hbuf.e m.m
    let mem := vdiv mem hbuf.e d hbuf.e m.m
    -- q[k] = vmul(e, m->m);
    let (h3, qk) := h2.alloc (vmul mem hbuf.e m.m)
    -- z1 = matrix_mul(q[k], z);
    (h3.mul qk z1).bind (fun (h4, z2) =>
    -- if (z != m) matrix_delete(z);
    (if z1 ≠ pm then matrix_delete h4 z1 else some h4).bind (fun h5 =>
      -- z = z1;
      some { h := h5, z := z2, q := Function.update st.q k (some qk),
             divs := st.divs ++ [d] }))))))

/-- The state after the first `k` iterations of
`for (int k = 0; k < m->n && k < m->m - 1; k++)`, from `z = m` and an
unassigned array `q`. -/
def householder_loop {K : Type} [LinearOrderedField K] (sqrt : K → K) (pm : Nat)
    (h : heap K) : Nat → Option (hstate K)
  | 0 => some { h := h, z := pm, q := fun _ => none, divs := [] }
  | k + 1 => (householder_loop sqrt pm h k).bind (fun st => householder_body sqrt pm st k)

/-- The number of iterations the condition `k < m->n && k < m->m - 1` allows,
counted from 0 (for `m->m = 0` the C bound is `-1` and the count is 0 as well). -/
def householder_steps {K : Type} (m : mat K) : Nat := min m.n (m.m - 1)

/-- The heap and the pointer `*Q` after the iterations `i = 1 .. j` of the second
loop, whose body is `z1 = matrix_mul(q[i], *Q); if (i > 1) matrix_delete(*Q);
*Q = z1; matrix_delete(q[i]);`, from `*Q = q[0]`.  Reading a slot of `q` that was
never assigned is a failure. -/
def householder_acc {K : Type} [Zero K] [Add K] [Mul K] (q : Nat → Option Nat)
    (h : heap K) : Nat → Option (heap K × Nat)
  | 0 => (q 0).map (fun q0 => (h, q0))
  | j + 1 => (householder_acc q h j).bind (fun (h1, Q) =>
      (q (j + 1)).bind (fun qi =>
      -- z1 = matrix_mul(q[i], *Q);
      (h1.mul qi Q).bind (fun (h2, z1) =>
      -- if (i > 1) matrix_delete(*Q);
      (if j + 1 > 1 then matrix_delete h2 Q else some h2).bind (fun h3 =>
      -- *Q = z1; matrix_delete(q[i]);
      (matrix_delete h3 qi).map (fun h4 => (h4, z1))))))

/-- What `householder` leaves: the heap and the pointers stored in `*R` and `*Q`. -/
structure qr (K : Type) where
  h : heap K
  R : Nat
  Q : Nat

/-- The C function `householder(m, &R, &Q)`, statement by statement: the first
loop, `matrix_delete(z)`, `*Q = q[0]`, `*R = matrix_mul(q[0], m)`, the second
loop over `i = 1 .. steps - 1`, `matrix_delete(q[0])`, `z = matrix_mul(*Q, m)`,
`matrix_delete(*R)`, `*R = z` and `matrix_transpose(*Q)`. -/
def householder {K : Type} [LinearOrderedField K] (sqrt : K → K) (h : heap K) (pm : Nat) :
    Option (qr K) :=
  -- the reads of `m->n` and `m->m` by the loop conditions
  (h.load pm).bind (fun m =>
  -- for (int k = 0; k < m->n && k < m->m - 1; k++) { ... }
  (householder_loop sqrt pm h (householder_steps m)).bind (fun st =>
  -- matrix_delete(z);
  (matrix_delete st.h st.z).bind (fun h1 =>
  -- *Q = q[0];
  (st.q 0).bind (fun q0 =>
  -- *R = matrix_mul(q[0], m);
  (h1.mul q0 pm).bind (fun (h2, R) =>
  -- for (int i = 1; i < m->n && i < m->m - 1; i++) { ... }
  (householder_acc st.q h2 (householder_steps m - 1)).bind (fun (h3, Q) =>
  -- matrix_delete(q[0]);
  (matrix_delete h3 q0).bind (fun h4 =>
  -- z = matrix_mul(*Q, m);
  (h4.mul Q pm).bind (fun (h5, z) =>
  -- matrix_delete(*R); *R = z;
  (matrix_delete h5 R).bind (fun h6 =>
  -- matrix_transpose(*Q);
  (h6.transpose Q).map (fun h7 => { h := h7, R := z, Q := Q }))))))))))

/-- The values `vdiv` divides by, one for each iteration of the first loop. -/
def householder_divs {K : Type} [LinearOrderedField K] (sqrt : K → K) (h : heap K)
    (pm : Nat) : Option (List K) :=
  (h.load pm).bind (fun m =>
    (householder_loop sqrt pm h (householder_steps m)).map (fun st => st.divs))

/-- No step of `householder` divides by a zero norm. -/
def NoZeroNorm {K : Type} [LinearOrderedField K] (sqrt : K → K) (h : heap K) (pm : Nat) :
    Prop :=
  ∃ ds, householder_divs sqrt h pm = some ds ∧ ∀ d ∈ ds, d ≠ 0

/-- Whether a run divides by zero can be computed. -/
instance NoZeroNorm.decidable {K : Type} [LinearOrderedField K] (sqrt : K → K) (h : heap K)
    (pm : Nat) : Decidable (NoZeroNorm sqrt h pm) :=
  match hd : householder_divs sqrt h pm with
  | some ds =>
    if hz : ∀ d ∈ ds, d ≠ 0 then isTrue ⟨ds, hd, hz⟩
    else isFalse (fun ⟨ds1, h1, h2⟩ => hz (by
      rw [hd, Option.some.injEq] at h1
      rw [h1]
      exact h2))
  | none => isFalse (fun ⟨_, h1, _⟩ => by
      rw [hd] at h1
      exact Option.noConfusion h1)

/-! ## The values along a run of `householder`

The same statements as above on the matrices themselves, without the storage:
these say which matrices the run computes, the definitions above say where they
live and for how long. -/

/-- The working matrix, the matrices assigned to `q` and the divisors. -/
structure hh_state (K : Type) where
  z : mat K
  q : Nat → Option (mat K)
  divs : List K

/-- The matrices computed by one run of the body of the first loop. -/
def hh_body {K : Type} [LinearOrderedField K] (sqrt : K → K) (m : mat K)
    (st : hh_state K) (k : Nat) : Option (hh_state K) :=
  let z := matrix_minor st.z k
  let mem : store hbuf K := mcol z (fun _ _ => 0) hbuf.x k
  let a := vnorm sqrt mem hbuf.x m.m
  let a := if m.v k k > 0 then -a else a
  let mem := (List.range m.m).foldl (fun mem i =>
    mem.write hbuf.e i (if i = k then 1 else 0)) mem
  let mem := vmadd mem hbuf.x hbuf.e a hbuf.e m.m
  let d := vnorm sqrt mem hbuf.e m.m
  let mem := vdiv mem hbuf.e d hbuf.e m.m
  let qk := vmul mem hbuf.e m.m
  match matrix_mul qk z with
  | none => none
  | some z1 => some { z := z1, q := Function.update st.q k (some qk), divs := st.divs ++ [d] }

/-- The matrices after the first `k` iterations of the first loop. -/
def hh_loop {K : Type} [LinearOrderedField K] (sqrt : K → K) (m : mat K) :
    Nat → Option (hh_state K)
  | 0 => some { z := m, q := fun _ => none, divs := [] }
  | k + 1 => (hh_loop sqrt m k).bind (fun st => hh_body sqrt m st k)

/-- The matrix `*Q` points to after the iterations `i = 1 .. j` of the second loop. -/
def hh_acc {K : Type} [Zero K] [Add K] [Mul K] (q : Nat → Option (mat K)) :
    Nat → Option (mat K)
  | 0 => q 0
  | j + 1 => (hh_acc q j).bind (fun Q => (q (j + 1)).bind (fun qi => matrix_mul qi Q))

/-- The two matrices a complete run computes for `*R` and `*Q`. -/
structure hh_pair (K : Type) where
  R : mat K
  Q : mat K

/-- The matrices a complete run of `householder` computes. -/
def hh_result {K : Type} [LinearOrderedField K] (sqrt : K → K) (m : mat K) :
    Option (hh_pair K) :=
  (hh_loop sqrt m (householder_steps m)).bind (fun st =>
    (st.q 0).bind (fun q0 =>
      (matrix_mul q0 m).bind (fun _ =>
        (hh_acc st.q (householder_steps m - 1)).bind (fun Q =>
          (matrix_mul Q m).bind (fun z =>
            some { R := z, Q := matrix_transpose Q })))))

/-- The divisors of a complete run are all different from zero. -/
def hh_nonzero {K : Type} [LinearOrderedField K] (sqrt : K → K) (m : mat K) : Prop :=
  ∃ st, hh_loop sqrt m (householder_steps m) = some st ∧ ∀ d ∈ st.divs, d ≠ 0

/-- Whether the divisors are all different from zero can be computed. -/
instance hh_nonzero.decidable {K : Type} [LinearOrderedField K] (sqrt : K → K) (m : mat K) :
    Decidable (hh_nonzero sqrt m) :=
  match hd : hh_loop sqrt m (householder_steps m) with
  | some st =>
    if hz : ∀ d ∈ st.divs, d ≠ 0 then isTrue ⟨st, hd, hz⟩
    else isFalse (fun ⟨st1, h1, h2⟩ => hz (by
      rw [hd, Option.some.injEq] at h1
      rw [h1]
      exact h2))
  | none => isFalse (fun ⟨_, h1, _⟩ => by
      rw [hd] at h1
      exact Option.noConfusion h1)

/-- A matrix given by its rows, as `main` reads it from the input file. -/
def mat_of_rows {K : Type} [Zero K] (m n : Nat) (rows : List (List K)) : mat K :=
  { m := m, n := n, v := fun i j => (rows.getD i []).getD j 0 }

/-- The sum `x[i][0]*y[0][j] + x[i][1]*y[1][j] + ...` over the first `k` indices,
accumulated from 0 in increasing order, as the innermost loop of `matrix_mul`
forms it. -/
def dot_upto {K : Type} [Zero K] [Add K] [Mul K] (x y : mat K) (i j k : Nat) : K :=
  (List.range k).foldl (fun acc l => acc + x.v i l * y.v l j) 0

/-- The cells of a `mat` that lie in an `M × N` window, as a matrix of Mathlib. -/
def toM {K : Type} (M N : Nat) (x : mat K) : Matrix (Fin M) (Fin N) K :=
  fun i j => x.v i.val j.val

/-- A 2 × 3 matrix of naturals. -/
def ex23 : mat Nat := mat_of_rows 2 3 [[1, 2, 3], [4, 5, 6]]

/-- A 2 × 1 matrix of rationals whose norms are rational. -/
def ex21 : mat ℚ := mat_of_rows 2 1 [[7], [24]]

/-- A matrix of rationals with a single row. -/
def ex13 : mat ℚ := mat_of_rows 1 3 [[5, 1, 2]]

/-- The 2 × 1 real matrix with the column (3, 4). -/
def exR : mat ℝ := mat_of_rows 2 1 [[3], [4]]

/-- A 2 × 2 real matrix. -/
def exR22 : mat ℝ := mat_of_rows 2 2 [[3, 1], [4, 2]]

/-- The 3 × 1 real matrix with the column (3, 4, 12). -/
def exR31 : mat ℝ := mat_of_rows 3 1 [[3], [4], [12]]

/-- The 3 × 2 real matrix with the columns (3, 4, 0) and (0, 0, 1). -/
def exR32 : mat ℝ := mat_of_rows 3 2 [[3, 0], [4, 0], [0, 1]]

/-- A 3 × 2 matrix of rationals. -/
def ex32 : mat ℚ := mat_of_rows 3 2 [[7, 0], [24, 0], [0, 1]]

/-- A 3 × 1 matrix of rationals. -/
def ex31 : mat ℚ := mat_of_rows 3 1 [[7], [24], [0]]

/-- A 3 × 3 matrix of naturals. -/
def ex33 : mat Nat := mat_of_rows 3 3 [[1, 2, 3], [4, 5, 6], [7, 8, 9]]

/-- A buffer store holding the vector (3/5, 4/5) in its only buffer. -/
def unit_store : store Unit ℚ := fun _ i => if i = 0 then 3 / 5 else if i = 1 then 4 / 5 else 0

/-- A store of naturals with two buffers. -/
def nat_store : store Bool Nat := fun b i => if b then i + 1 else 10 * i

/-- A 2 × 3 matrix of rationals. -/
def exQ23 : mat ℚ := mat_of_rows 2 3 [[1, 2, 3], [4, 5, 6]]

/-- A 2 × 2 matrix of rationals. -/
def exQ22 : mat ℚ := mat_of_rows 2 2 [[3, 1], [4, 2]]

/-- A 2 × 3 real matrix. -/
def exR23 : mat ℝ := mat_of_rows 2 3 [[3, 1, 2], [4, 2, 1]]

/-- The reference input of the usage example, a 5 × 3 matrix. -/
def exA : mat ℝ :=
  mat_of_rows 5 3 [[12, -51, 4], [6, 167, -68], [-4, 24, -41], [-1, 1, 0], [2, 0, 3]]

/-- The sum of squares `vnorm` accumulates over the first `n` cells of a buffer. -/
def sumsq {K : Type} [Zero K] [Add K] [Mul K] (f : Nat → K) (n : Nat) : K :=
  (List.range n).foldl (fun sum i => sum + f i * f i) 0

/-- The vector `x` of step `k`: column `k` of the `k`-th minor of the working matrix `z`. -/
def hh_x {K : Type} [Zero K] [One K] (z : mat K) (k : Nat) : Nat → K :=
  fun i => (matrix_minor z k).v i k

/-- The scalar `a` of step `k`: the norm of `x`, negated when `m->v[k][k] > 0`. -/
def hh_a {K : Type} [LinearOrderedField K] (sqrt : K → K) (m z : mat K) (k : Nat) : K :=
  if m.v k k > 0 then -sqrt (sumsq (hh_x z k) m.m) else sqrt (sumsq (hh_x z k) m.m)

/-- The buffer `e` of step `k` after `vmadd(x, e, a, e, m->m)`. -/
def hh_v {K : Type} [LinearOrderedField K] (sqrt : K → K) (m z : mat K) (k : Nat) : Nat → K :=
  fun i => hh_x z k i + hh_a sqrt m z k * (if i = k then 1 else 0)

/-- The norm by which step `k` divides. -/
def hh_d {K : Type} [LinearOrderedField K] (sqrt : K → K) (m z : mat K) (k : Nat) : K :=
  sqrt (sumsq (hh_v sqrt m z k) m.m)

/-- The buffer `e` of step `k` after `vdiv(e, vnorm(e, m->m), e, m->m)`. -/
def hh_e {K : Type} [LinearOrderedField K] (sqrt : K → K) (m z : mat K) (k : Nat) : Nat → K :=
  fun i => hh_v sqrt m z k i / hh_d sqrt m z k

/-- The matrix `vmul` builds from a vector `e` of length `n`. -/
def reflector {K : Type} [Ring K] (n : Nat) (e : Nat → K) : mat K :=
  ⟨n, n, fun a b => if a < n ∧ b < n then
    (if a = b then -2 * e a * e b + 1 else -2 * e a * e b) else 0⟩

/-- The working matrix after step `k`: the product of the reflector of the step
with the `k`-th minor of the working matrix `z`. -/
def hh_next {K : Type} [LinearOrderedField K] (sqrt : K → K) (m z : mat K) (k : Nat) : mat K :=
  ⟨m.m, z.n, fun a b => if a < m.m ∧ b < z.n then
    dot_upto (reflector m.m (hh_e sqrt m z k)) (matrix_minor z k) a b m.m else 0⟩

/-! ## Mathlib matrices for the algebra -/

/-- The matrix `I - 2·e·eᵗ` of Mathlib, for a vector `e` indexed by `Fin M`. -/
def reflM {K : Type} [Ring K] {M : Nat} (e : Fin M → K) : Matrix (Fin M) (Fin M) K :=
  fun i j => (if i = j then 1 else 0) - 2 * e i * e j

/-- The product `q[k-1] · … · q[1] · q[0]` of the first `k` slots of the array `q`,
as a matrix of Mathlib (an unassigned slot counts as the identity). -/
def prodQ {K : Type} [Ring K] (M : Nat) (q : Nat → Option (mat K)) :
    Nat → Matrix (Fin M) (Fin M) K
  | 0 => 1
  | k + 1 => (match q k with
      | some qk => toM M M qk
      | none => 1) * prodQ M q k

/-! ## Loops in closed form -/

/-- The invariant rule for a loop `for (i = 0; i < n; i++)`. -/
theorem foldl_range_inv {S : Type} (step : S → Nat → S) (P : Nat → S → Prop) (n : Nat)
    (s0 : S)
    (h0 : P 0 s0) (hs : ∀ i s, i < n → P i s → P (i + 1) (step s i)) :
    P n ((List.range n).foldl step s0) := by
  induction n with
  | zero => simpa using h0
  | succ k ih =>
    rw [List.range_succ, List.foldl_append]
    simp only [List.foldl_cons, List.foldl_nil]
    exact hs k _ (Nat.lt_succ_self k)
      (ih (fun i s hi hP => hs i s (Nat.lt_succ_of_lt hi) hP))

/-- The invariant rule for a loop `for (i = d; i < d + len; i++)`. -/
theorem foldl_range'_inv {S : Type} (step : S → Nat → S) (P : Nat → S → Prop) (d len : Nat)
    (s0 : S) (h0 : P d s0)
    (hs : ∀ i s, d ≤ i → i < d + len → P i s → P (i + 1) (step s i)) :
    P (d + len) ((List.range' d len).foldl step s0) := by
  induction len with
  | zero => simpa using h0
  | succ k ih =>
    rw [List.range'_concat, List.foldl_append]
    simp only [List.foldl_cons, List.foldl_nil, Nat.one_mul]
    exact hs (d + k) _ (Nat.le_add_right d k) (by omega)
      (ih (fun i s hd hi hP => hs i s hd (by omega) hP))

/-- One more term of the accumulated sum. -/
theorem dot_upto_succ {K : Type} [Zero K] [Add K] [Mul K] (x y : mat K) (i j k : Nat) :
    dot_upto x y i j (k + 1) = dot_upto x y i j k + x.v i k * y.v k j := by
  simp [dot_upto, List.range_succ, List.foldl_append]

/-- Two matrices with the same dimensions and the same cells are equal. -/
theorem mat_ext {K : Type} {x y : mat K} (hm : x.m = y.m) (hn : x.n = y.n)
    (hv : ∀ i j, x.v i j = y.v i j) : x = y := by
  cases x; cases y
  simp only [mat.mk.injEq] at *
  exact ⟨hm, hn, funext fun i => funext fun j => hv i j⟩

/-- The triple loop of `matrix_mul` in closed form. -/
theorem matrix_mul_loops {K : Type} [Zero K] [Add K] [Mul K] (x y : mat K) :
    (List.range x.m).foldl (fun r i =>
      (List.range y.n).foldl (fun r j =>
        (List.range x.n).foldl (fun r k =>
          r.set i j (r.v i j + x.v i k * y.v k j)) r) r) (matrix_new x.m y.n)
    = (⟨x.m, y.n,
        fun a b => if a < x.m ∧ b < y.n then dot_upto x y a b x.n else 0⟩ : mat K) := by
  refine foldl_range_inv _ (fun i r => r = (⟨x.m, y.n,
      fun a b => if a < i ∧ b < y.n then dot_upto x y a b x.n else 0⟩ : mat K)) x.m _ ?_ ?_
  · exact mat_ext rfl rfl (fun a b => by simp [matrix_new])
  · intro i r _ hr
    subst hr
    refine Eq.trans (foldl_range_inv _ (fun j r => r = (⟨x.m, y.n,
        fun a b => if (a < i ∧ b < y.n) ∨ (a = i ∧ b < j) then dot_upto x y a b x.n
          else 0⟩ : mat K)) y.n _ ?_ ?_) ?_
    · refine mat_ext rfl rfl (fun a b => ?_)
      simp only
      split_ifs <;> first | rfl | omega
    · intro j r _ hr
      subst hr
      refine Eq.trans (foldl_range_inv _ (fun k r => r = (⟨x.m, y.n,
          fun a b => if (a < i ∧ b < y.n) ∨ (a = i ∧ b < j) then dot_upto x y a b x.n
            else if a = i ∧ b = j then dot_upto x y a b k else 0⟩ : mat K)) x.n _ ?_ ?_) ?_
      · refine mat_ext rfl rfl (fun a b => ?_)
        simp only
        split_ifs <;> rfl
      · intro k r _ hr
        subst hr
        refine mat_ext rfl rfl (fun a b => ?_)
        by_cases h3 : a = i ∧ b = j
        · obtain ⟨rfl, rfl⟩ := h3
          simp [mat.set, dot_upto_succ]
        · simp [mat.set, h3]
      · refine mat_ext rfl rfl (fun a b => ?_)
        simp only
        split_ifs <;> first | rfl | omega
    · refine mat_ext rfl rfl (fun a b => ?_)
      simp only
      split_ifs <;> first | rfl | omega

/-- The result of `matrix_minor` in closed form. -/
theorem matrix_minor_eq {K : Type} [Zero K] [One K] (x : mat K) (d : Nat) :
    matrix_minor x d = (⟨x.m, x.n, fun a b =>
      if d ≤ a ∧ a < x.m ∧ d ≤ b ∧ b < x.n then x.v a b
      else if a = b ∧ a < d then 1 else 0⟩ : mat K) := by
  have h1 : (List.range d).foldl (fun (m : mat K) i => m.set i i 1) (matrix_new x.m x.n)
      = (⟨x.m, x.n, fun a b => if a = b ∧ a < d then 1 else 0⟩ : mat K) := by
    refine foldl_range_inv _ (fun i r => r = (⟨x.m, x.n,
      fun a b => if a = b ∧ a < i then 1 else 0⟩ : mat K)) d _ ?_ ?_
    · exact mat_ext rfl rfl (fun a b => by simp [matrix_new])
    · intro i r _ hr
      subst hr
      refine mat_ext rfl rfl (fun a b => ?_)
      simp only [mat.set]
      split_ifs <;> first | rfl | omega
  unfold matrix_minor
  simp only [h1]
  by_cases hd : d ≤ x.m
  · have := foldl_range'_inv (fun (m : mat K) i =>
        (List.range' d (x.n - d)).foldl (fun m j => m.set i j (x.v i j)) m)
      (fun i r => r = (⟨x.m, x.n, fun a b =>
        if d ≤ a ∧ a < i ∧ d ≤ b ∧ b < x.n then x.v a b
        else if a = b ∧ a < d then 1 else 0⟩ : mat K)) d (x.m - d)
      (⟨x.m, x.n, fun a b => if a = b ∧ a < d then 1 else 0⟩ : mat K) ?_ ?_
    · rw [this]
      refine mat_ext rfl rfl (fun a b => ?_)
      simp only
      split_ifs <;> first | rfl | omega
    · refine mat_ext rfl rfl (fun a b => ?_)
      simp only
      split_ifs <;> first | rfl | omega
    · intro i r hdi hi hr
      subst hr
      by_cases hdn : d ≤ x.n
      · refine Eq.trans (foldl_range'_inv _ (fun j r => r = (⟨x.m, x.n, fun a b =>
          if (d ≤ a ∧ a < i ∧ d ≤ b ∧ b < x.n) ∨ (a = i ∧ d ≤ b ∧ b < j)
          then x.v a b
          else if a = b ∧ a < d then 1 else 0⟩ : mat K)) d (x.n - d) _ ?_ ?_) ?_
        · refine mat_ext rfl rfl (fun a b => ?_)
          simp only
          split_ifs <;> first | rfl | omega
        · intro j r hdj hj hr
          subst hr
          refine mat_ext rfl rfl (fun a b => ?_)
          simp only [mat.set]
          split_ifs <;> first | rfl | omega | simp_all
        · refine mat_ext rfl rfl (fun a b => ?_)
          simp only
          split_ifs <;> first | rfl | omega
      · have h0 : x.n - d = 0 := by omega
        simp only [h0, List.range'_zero, List.foldl_nil]
        refine mat_ext rfl rfl (fun a b => ?_)
        simp only
        split_ifs <;> first | rfl | omega
  · have h0 : x.m - d = 0 := by omega
    simp only [h0, List.range'_zero, List.foldl_nil]
    refine mat_ext rfl rfl (fun a b => ?_)
    simp only
    split_ifs <;> first | rfl | omega

/-- The result of `matrix_transpose` in closed form: the cells with both indices below
`m` are mirrored. -/
theorem matrix_transpose_eq {K : Type} (x : mat K) :
    matrix_transpose x = (⟨x.m, x.n, fun a b =>
      if a < x.m ∧ b < x.m then x.v b a else x.v a b⟩ : mat K) := by
  unfold matrix_transpose
  refine Eq.trans (foldl_range_inv _ (fun i r => r = (⟨x.m, x.n, fun a b =>
      if a < i ∧ b < i then x.v b a else x.v a b⟩ : mat K)) x.m _ ?_ ?_) ?_
  · refine mat_ext rfl rfl (fun a b => ?_)
    simp
  · intro i r _ hr
    subst hr
    refine Eq.trans (foldl_range_inv _ (fun j r => r = (⟨x.m, x.n, fun a b =>
      if (a < i ∧ b < i) ∨ (a = i ∧ b < j) ∨ (b = i ∧ a < j) then x.v b a
      else x.v a b⟩ : mat K)) i _ ?_ ?_) ?_
    · refine mat_ext rfl rfl (fun a b => ?_)
      simp only
      split_ifs <;> first | rfl | omega
    · intro j r hj hr
      subst hr
      refine mat_ext rfl rfl (fun a b => ?_)
      simp only [mat.set]
      split_ifs <;> first | rfl | omega | simp_all
    · refine mat_ext rfl rfl (fun a b => ?_)
      simp only
      split_ifs with h1 h2 <;> first | rfl | omega | skip
      all_goals
        first
        | (have : a = b := by omega
           subst this; rfl)
  · rfl

/-- The store `vmadd` leaves, whichever buffers coincide. -/
theorem vmadd_eq {B K : Type} [DecidableEq B] [Add K] [Mul K]
    (mem : store B K) (a b : B) (s : K) (c : B) (n : Nat) :
    vmadd mem a b s c n
      = fun p i => if p = c ∧ i < n then mem a i + s * mem b i else mem p i := by
  unfold vmadd
  refine Eq.trans (foldl_range_inv _ (fun k (r : store B K) => r =
      fun p i => if p = c ∧ i < k then mem a i + s * mem b i else mem p i) n _ ?_ ?_) rfl
  · funext p i
    simp
  · intro k r _ hr
    subst hr
    funext p i
    simp only [store.write]
    split_ifs <;> first | rfl | omega | (simp_all <;> omega)

/-- The store `vdiv` leaves, whichever buffers coincide. -/
theorem vdiv_eq {B K : Type} [DecidableEq B] [Div K]
    (mem : store B K) (x : B) (d : K) (y : B) (n : Nat) :
    vdiv mem x d y n = fun p i => if p = y ∧ i < n then mem x i / d else mem p i := by
  unfold vdiv
  refine Eq.trans (foldl_range_inv _ (fun k (r : store B K) => r =
      fun p i => if p = y ∧ i < k then mem x i / d else mem p i) n _ ?_ ?_) rfl
  · funext p i
    simp
  · intro k r _ hr
    subst hr
    funext p i
    simp only [store.write]
    split_ifs <;> first | rfl | omega | (simp_all <;> omega)

/-- The store `mcol` leaves. -/
theorem mcol_eq {B K : Type} [DecidableEq B] (m : mat K) (mem : store B K) (v : B) (c : Nat) :
    mcol m mem v c = fun p i => if p = v ∧ i < m.m then m.v i c else mem p i := by
  unfold mcol
  refine Eq.trans (foldl_range_inv _ (fun k (r : store B K) => r =
      fun p i => if p = v ∧ i < k then m.v i c else mem p i) m.m _ ?_ ?_) rfl
  · funext p i
    simp
  · intro k r _ hr
    subst hr
    funext p i
    simp only [store.write]
    split_ifs <;> first | rfl | omega | (simp_all <;> omega)

/-- The store left by the loop `e[i] = (i == k) ? 1 : 0`. -/
theorem unit_vector_eq {B K : Type} [DecidableEq B] [Zero K] [One K]
    (mem : store B K) (e : B) (k n : Nat) :
    (List.range n).foldl (fun mem i => mem.write e i (if i = k then 1 else 0)) mem
      = fun p i => if p = e ∧ i < n then (if i = k then 1 else 0) else mem p i := by
  refine Eq.trans (foldl_range_inv _ (fun j (r : store B K) => r =
      fun p i => if p = e ∧ i < j then (if i = k then 1 else 0) else mem p i) n _ ?_ ?_) rfl
  · funext p i
    simp
  · intro j r _ hr
    subst hr
    funext p i
    simp only [store.write]
    split_ifs <;> first | rfl | omega | (simp_all <;> omega)

/-- The result of `vmul` in closed form. -/
theorem vmul_eq {B K : Type} [Ring K] (mem : store B K) (v : B) (n : Nat) :
    vmul mem v n = (⟨n, n, fun a b =>
      if a < n ∧ b < n then (if a = b then -2 * mem v a * mem v b + 1
        else -2 * mem v a * mem v b) else 0⟩ : mat K) := by
  have h1 : (List.range n).foldl (fun (x : mat K) i =>
      (List.range n).foldl (fun x j => x.set i j (-2 * mem v i * mem v j)) x) (matrix_new n n)
      = (⟨n, n, fun a b => if a < n ∧ b < n then -2 * mem v a * mem v b else 0⟩ : mat K) := by
    refine Eq.trans (foldl_range_inv _ (fun i r => r = (⟨n, n, fun a b =>
      if a < i ∧ b < n then -2 * mem v a * mem v b else 0⟩ : mat K)) n _ ?_ ?_) rfl
    · exact mat_ext rfl rfl (fun a b => by simp [matrix_new])
    · intro i r _ hr
      subst hr
      refine Eq.trans (foldl_range_inv _ (fun j r => r = (⟨n, n, fun a b =>
        if (a < i ∧ b < n) ∨ (a = i ∧ b < j) then -2 * mem v a * mem v b
        else 0⟩ : mat K)) n _ ?_ ?_) ?_
      · refine mat_ext rfl rfl (fun a b => ?_)
        simp only
        split_ifs <;> first | rfl | omega
      · intro j r _ hr
        subst hr
        refine mat_ext rfl rfl (fun a b => ?_)
        simp only [mat.set]
        split_ifs <;> first | rfl | omega | simp_all
      · refine mat_ext rfl rfl (fun a b => ?_)
        simp only
        split_ifs <;> first | rfl | omega
  unfold vmul
  simp only [h1]
  refine Eq.trans (foldl_range_inv _ (fun i r => r = (⟨n, n, fun a b =>
      if a < n ∧ b < n then (if a = b ∧ a < i then -2 * mem v a * mem v b + 1
        else -2 * mem v a * mem v b) else 0⟩ : mat K)) n _ ?_ ?_) ?_
  · refine mat_ext rfl rfl (fun a b => ?_)
    simp
  · intro i r hi hr
    subst hr
    refine mat_ext rfl rfl (fun a b => ?_)
    simp only [mat.set]
    split_ifs <;> first | rfl | omega | simp_all
  · refine mat_ext rfl rfl (fun a b => ?_)
    simp only
    split_ifs <;> first | rfl | omega

/-- Two loops whose bodies agree on the indices run give the same result. -/
theorem foldl_range_congr {S : Type} (f g : S → Nat → S) (n : Nat) (s : S)
    (h : ∀ i, i < n → ∀ t, f t i = g t i) :
    (List.range n).foldl f s = (List.range n).foldl g s := by
  induction n with
  | zero => rfl
  | succ k ih =>
    rw [List.range_succ, List.foldl_append, List.foldl_append,
      ih (fun i hi t => h i (Nat.lt_succ_of_lt hi) t)]
    simp only [List.foldl_cons, List.foldl_nil]
    exact h k (Nat.lt_succ_self k) _

/-- The accumulated sum of squares reads only the first `n` cells. -/
theorem sumsq_congr {K : Type} [Zero K] [Add K] [Mul K] (f g : Nat → K) (n : Nat)
    (h : ∀ i, i < n → f i = g i) : sumsq f n = sumsq g n := by
  unfold sumsq
  exact foldl_range_congr _ _ n 0 (fun i hi t => by rw [h i hi])

/-- The buffer `x` after `mcol(z, x, k)` on the `k`-th minor. -/
theorem body_x_eq {K : Type} [Zero K] [One K] (m z : mat K) (k : Nat) (hzm : z.m = m.m)
    (i : Nat) (hi : i < m.m) :
    mcol (matrix_minor z k) (fun _ _ => (0 : K)) hbuf.x k hbuf.x i = hh_x z k i := by
  have hzm' : (matrix_minor z k).m = m.m := by rw [matrix_minor_eq]; exact hzm
  rw [mcol_eq]
  simp only [hh_x, hzm', hi, and_self, if_true]

/-- The scalar `a` of the loop body is `hh_a`. -/
theorem body_a_eq {K : Type} [LinearOrderedField K] (sqrt : K → K) (m z : mat K) (k : Nat)
    (hzm : z.m = m.m) :
    (if m.v k k > 0
        then -vnorm sqrt (mcol (matrix_minor z k) (fun _ _ => (0 : K)) hbuf.x k) hbuf.x m.m
        else vnorm sqrt (mcol (matrix_minor z k) (fun _ _ => (0 : K)) hbuf.x k) hbuf.x m.m)
      = hh_a sqrt m z k := by
  have : vnorm sqrt (mcol (matrix_minor z k) (fun _ _ => (0 : K)) hbuf.x k) hbuf.x m.m
      = sqrt (sumsq (hh_x z k) m.m) := by
    unfold vnorm
    exact congrArg sqrt (sumsq_congr _ _ m.m (body_x_eq m z k hzm))
  rw [this]
  rfl

/-- The buffer `e` after `vmadd(x, e, a, e, m->m)` is `hh_v`. -/
theorem body_v_eq {K : Type} [LinearOrderedField K] (sqrt : K → K) (m z : mat K) (k : Nat)
    (hzm : z.m = m.m) (i : Nat) (hi : i < m.m) :
    vmadd ((List.range m.m).foldl (fun mem i => mem.write hbuf.e i (if i = k then 1 else 0))
      (mcol (matrix_minor z k) (fun _ _ => (0 : K)) hbuf.x k)) hbuf.x hbuf.e
      (hh_a sqrt m z k) hbuf.e m.m hbuf.e i = hh_v sqrt m z k i := by
  rw [vmadd_eq, unit_vector_eq]
  simp only [hi, and_self, if_true, hh_v, reduceCtorEq, false_and, if_false]
  rw [body_x_eq m z k hzm i hi]

/-- The divisor of the loop body is `hh_d`. -/
theorem body_d_eq {K : Type} [LinearOrderedField K] (sqrt : K → K) (m z : mat K) (k : Nat)
    (hzm : z.m = m.m) :
    vnorm sqrt (vmadd ((List.range m.m).foldl
      (fun mem i => mem.write hbuf.e i (if i = k then 1 else 0))
      (mcol (matrix_minor z k) (fun _ _ => (0 : K)) hbuf.x k)) hbuf.x hbuf.e
      (hh_a sqrt m z k) hbuf.e m.m) hbuf.e m.m = hh_d sqrt m z k := by
  unfold vnorm hh_d
  exact congrArg sqrt (sumsq_congr _ _ m.m (body_v_eq sqrt m z k hzm))

/-- The matrix `vmul` builds in the loop body is the reflector of `hh_e`. -/
theorem body_q_eq {K : Type} [LinearOrderedField K] (sqrt : K → K) (m z : mat K) (k : Nat)
    (hzm : z.m = m.m) :
    vmul (vdiv (vmadd ((List.range m.m).foldl
      (fun mem i => mem.write hbuf.e i (if i = k then 1 else 0))
      (mcol (matrix_minor z k) (fun _ _ => (0 : K)) hbuf.x k)) hbuf.x hbuf.e
      (hh_a sqrt m z k) hbuf.e m.m) hbuf.e (hh_d sqrt m z k) hbuf.e m.m) hbuf.e m.m
      = reflector m.m (hh_e sqrt m z k) := by
  rw [vmul_eq, vdiv_eq]
  refine mat_ext rfl rfl (fun a b => ?_)
  simp only [reflector, hh_e]
  by_cases hab : a < m.m ∧ b < m.m
  · rw [if_pos hab, if_pos hab]
    simp only [hab.1, hab.2, and_self, if_true, body_v_eq sqrt m z k hzm a hab.1,
      body_v_eq sqrt m z k hzm b hab.2]
  · rw [if_neg hab, if_neg hab]

/-- The body of the first loop in closed form: the reflector, the product and the
divisor are the values named above. -/
theorem hh_body_eq {K : Type} [LinearOrderedField K] (sqrt : K → K) (m : mat K)
    (st : hh_state K) (k : Nat) (hzm : st.z.m = m.m) :
    hh_body sqrt m st k =
      (matrix_mul (reflector m.m (hh_e sqrt m st.z k)) (matrix_minor st.z k)).map
        (fun z1 => { z := z1,
                     q := Function.update st.q k (some (reflector m.m (hh_e sqrt m st.z k))),
                     divs := st.divs ++ [hh_d sqrt m st.z k] }) := by
  unfold hh_body
  simp only [body_a_eq sqrt m st.z k hzm, body_d_eq sqrt m st.z k hzm,
    body_q_eq sqrt m st.z k hzm]
  cases matrix_mul (reflector m.m (hh_e sqrt m st.z k)) (matrix_minor st.z k) <;> rfl

/-- The routine `matrix_mul` on matching inner dimensions, in closed form. -/
theorem matrix_mul_eq {K : Type} [Zero K] [Add K] [Mul K] (x y : mat K) (h : x.n = y.m) :
    matrix_mul x y = some (⟨x.m, y.n,
      fun a b => if a < x.m ∧ b < y.n then dot_upto x y a b x.n else 0⟩ : mat K) := by
  unfold matrix_mul
  rw [if_neg (not_not.mpr h), matrix_mul_loops]

/-! ## Shapes along the run of `householder` -/

/-- The body of the first loop succeeds on a working matrix with `m.m` rows. -/
theorem hh_body_some {K : Type} [LinearOrderedField K] (sqrt : K → K) (m : mat K)
    (st : hh_state K) (k : Nat) (hzm : st.z.m = m.m) :
    hh_body sqrt m st k = some
      { z := (⟨m.m, st.z.n, fun a b => if a < m.m ∧ b < st.z.n then
            dot_upto (reflector m.m (hh_e sqrt m st.z k)) (matrix_minor st.z k) a b m.m
            else 0⟩ : mat K),
        q := Function.update st.q k (some (reflector m.m (hh_e sqrt m st.z k))),
        divs := st.divs ++ [hh_d sqrt m st.z k] } := by
  have hmin : (matrix_minor st.z k).m = m.m := by rw [matrix_minor_eq]; exact hzm
  have hminn : (matrix_minor st.z k).n = st.z.n := by rw [matrix_minor_eq]
  rw [hh_body_eq sqrt m st k hzm,
    matrix_mul_eq _ _ (show (reflector m.m (hh_e sqrt m st.z k)).n = (matrix_minor st.z k).m
      from hmin.symm)]
  simp only [Option.map_some', hminn]
  rfl

/-- The shapes kept by the first loop: after `k` iterations the working matrix has
the shape of `m`, the slots `q[0] .. q[k-1]` hold `m.m × m.m` matrices and the other
slots are unassigned. -/
theorem hh_loop_shape {K : Type} [LinearOrderedField K] (sqrt : K → K) (m : mat K)
    (k : Nat) :
    ∃ st, hh_loop sqrt m k = some st ∧ st.z.m = m.m ∧ st.z.n = m.n ∧
      (∀ j, j < k → ∃ q, st.q j = some q ∧ q.m = m.m ∧ q.n = m.m) ∧
      (∀ j, k ≤ j → st.q j = none) ∧ st.divs.length = k := by
  induction k with
  | zero =>
    exact ⟨_, rfl, rfl, rfl, fun j hj => absurd hj (Nat.not_lt_zero j), fun _ _ => rfl, rfl⟩
  | succ k ih =>
    obtain ⟨st, hst, hzm, hzn, hq, hnone, hlen⟩ := ih
    have hl : hh_loop sqrt m (k + 1) = hh_body sqrt m st k := by
      simp only [hh_loop, hst, Option.some_bind]
    rw [hh_body_some sqrt m st k hzm] at hl
    refine ⟨_, hl, ?_, ?_, ?_, ?_, ?_⟩
    · rfl
    · exact hzn
    · intro j hj
      by_cases hjk : j = k
      · refine ⟨reflector m.m (hh_e sqrt m st.z k), ?_, rfl, rfl⟩
        rw [hjk]
        simp
      · obtain ⟨q, h1, h2, h3⟩ := hq j (by omega)
        exact ⟨q, by simp [Function.update_noteq hjk, h1], h2, h3⟩
    · intro j hj
      have hjk : j ≠ k := by omega
      simp [Function.update_noteq hjk, hnone j (by omega)]
    · simp [hlen]

/-- The second loop succeeds and keeps the shape when the slots it reads are assigned. -/
theorem hh_acc_shape {K : Type} [Zero K] [Add K] [Mul K] (M : Nat)
    (q : Nat → Option (mat K)) (J : Nat)
    (hq : ∀ j, j ≤ J → ∃ qj, q j = some qj ∧ qj.m = M ∧ qj.n = M) :
    ∃ P, hh_acc q J = some P ∧ P.m = M ∧ P.n = M := by
  induction J with
  | zero => exact hq 0 (Nat.le_refl 0)
  | succ J ih =>
    obtain ⟨P, hP, hPm, hPn⟩ := ih (fun j hj => hq j (Nat.le_succ_of_le hj))
    obtain ⟨qj, hqj, hqm, hqn⟩ := hq (J + 1) (Nat.le_refl _)
    have hl : hh_acc q (J + 1) = matrix_mul qj P := by
      simp only [hh_acc, hP, hqj, Option.some_bind]
    rw [matrix_mul_eq qj P (by rw [hqn, hPm])] at hl
    refine ⟨_, hl, ?_, ?_⟩
    · exact hqm
    · exact hPn

/-- With at least two rows and one column the loops run at least once. -/
theorem householder_steps_pos {K : Type} (m : mat K) (hM : 2 ≤ m.m) (hN : 1 ≤ m.n) :
    1 ≤ householder_steps m := by
  unfold householder_steps
  omega

/-- The result of `householder` in terms of the state after the first loop and
of the product accumulated by the second. -/
theorem hh_result_eq {K : Type} [LinearOrderedField K] (sqrt : K → K) (m : mat K)
    (hM : 2 ≤ m.m) (hN : 1 ≤ m.n) :
    ∃ st P, hh_loop sqrt m (householder_steps m) = some st ∧
      hh_acc st.q (householder_steps m - 1) = some P ∧ P.m = m.m ∧ P.n = m.m ∧
      hh_result sqrt m = some
        { R := (⟨m.m, m.n, fun a b => if a < m.m ∧ b < m.n then dot_upto P m a b m.m
            else 0⟩ : mat K),
          Q := matrix_transpose P } := by
  obtain ⟨st, hst, hzm, hzn, hq, -, -⟩ := hh_loop_shape sqrt m (householder_steps m)
  have hpos := householder_steps_pos m hM hN
  obtain ⟨P, hP, hPm, hPn⟩ := hh_acc_shape m.m st.q (householder_steps m - 1)
    (fun j hj => hq j (by omega))
  obtain ⟨q0, hq0, hq0m, hq0n⟩ := hq 0 (by omega)
  refine ⟨st, P, hst, hP, hPm, hPn, ?_⟩
  unfold hh_result
  simp only [hst, hq0, hP, Option.some_bind, matrix_mul_eq q0 m hq0n, matrix_mul_eq P m hPn,
    hPm, hPn]

/-! ## The routines on Mathlib matrices -/

/-- An accumulation from 0 is the sum over the range. -/
theorem foldl_add_eq_sum {K : Type} [AddCommMonoid K] (f : Nat → K) (n : Nat) :
    (List.range n).foldl (fun acc l => acc + f l) 0 = ∑ l in Finset.range n, f l := by
  induction n with
  | zero => simp
  | succ k ih =>
    rw [List.range_succ, List.foldl_append, ih, Finset.sum_range_succ]
    simp

/-- The sum of squares of `vnorm` as a sum over `Fin n`. -/
theorem sumsq_eq_sum {K : Type} [Semiring K] (f : Nat → K) (n : Nat) :
    sumsq f n = ∑ l : Fin n, f l.val * f l.val := by
  unfold sumsq
  rw [foldl_add_eq_sum (fun l => f l * f l) n, Fin.sum_univ_eq_sum_range (fun l => f l * f l) n]

/-- The accumulated product sum as a sum over `Fin n`. -/
theorem dot_upto_eq_sum {K : Type} [Semiring K] (x y : mat K) (i j n : Nat) :
    dot_upto x y i j n = ∑ l : Fin n, x.v i l.val * y.v l.val j := by
  unfold dot_upto
  rw [foldl_add_eq_sum (fun l => x.v i l * y.v l j) n,
    Fin.sum_univ_eq_sum_range (fun l => x.v i l * y.v l j) n]

/-- The routine `matrix_mul` is the product of Mathlib matrices. -/
theorem toM_matrix_mul {K : Type} [Semiring K] (M L N : Nat) (x y r : mat K)
    (hxm : x.m = M) (hxn : x.n = L) (hym : y.m = L) (hyn : y.n = N)
    (h : matrix_mul x y = some r) :
    r.m = M ∧ r.n = N ∧ toM M N r = toM M L x * toM L N y := by
  rw [matrix_mul_eq x y (by rw [hxn, hym])] at h
  cases h
  refine ⟨hxm, hyn, ?_⟩
  ext i j
  have hi : i.val < x.m := by rw [hxm]; exact i.isLt
  have hj : j.val < y.n := by rw [hyn]; exact j.isLt
  simp only [toM, Matrix.mul_apply, if_pos (And.intro hi hj), hxn, dot_upto_eq_sum]

/-- The routine `matrix_transpose` of a matrix with `M` rows is the transpose on the `M
× M` window. -/
theorem toM_transpose {K : Type} (M : Nat) (x : mat K) (hxm : x.m = M) :
    toM M M (matrix_transpose x) = (toM M M x).transpose := by
  ext i j
  have hi : i.val < x.m := by rw [hxm]; exact i.isLt
  have hj : j.val < x.m := by rw [hxm]; exact j.isLt
  rw [matrix_transpose_eq]
  simp only [toM, Matrix.transpose_apply, if_pos (And.intro hi hj)]

/-- The matrix built by `vmul` is `I - 2·e·eᵗ`. -/
theorem toM_reflector {K : Type} [CommRing K] (M : Nat) (e : Nat → K) :
    toM M M (reflector M e) = reflM (fun i : Fin M => e i.val) := by
  ext i j
  simp only [toM, reflector, reflM, if_pos (And.intro i.isLt j.isLt), Fin.val_inj]
  split_ifs <;> ring

/-- Multiplying by `I - 2·e·eᵗ` on the left, entry by entry. -/
theorem reflM_mul_apply {K : Type} [CommRing K] {M N : Nat} (e : Fin M → K)
    (B : Matrix (Fin M) (Fin N) K) (i : Fin M) (j : Fin N) :
    (reflM e * B) i j = B i j - 2 * e i * ∑ l, e l * B l j := by
  simp only [Matrix.mul_apply, reflM, sub_mul, Finset.sum_sub_distrib, ite_mul, one_mul,
    zero_mul, Finset.sum_ite_eq, Finset.mem_univ, if_true, Finset.mul_sum]
  congr 1
  exact Finset.sum_congr rfl (fun l _ => by ring)

/-- The matrix `I - 2·e·eᵗ` is symmetric. -/
theorem reflM_transpose {K : Type} [CommRing K] {M : Nat} (e : Fin M → K) :
    (reflM e).transpose = reflM e := by
  ext i j
  simp only [Matrix.transpose_apply, reflM, eq_comm (a := j) (b := i)]
  ring

/-- The matrix `I - 2·e·eᵗ` is its own inverse when `e` has unit length. -/
theorem reflM_mul_self {K : Type} [CommRing K] {M : Nat} (e : Fin M → K)
    (he : ∑ l, e l * e l = 1) : reflM e * reflM e = 1 := by
  ext i j
  rw [reflM_mul_apply]
  have h1 : ∑ l, e l * reflM e l j = e j - 2 * e j * ∑ l, e l * e l := by
    simp only [reflM, mul_sub, Finset.sum_sub_distrib, mul_ite, mul_one, mul_zero,
      Finset.sum_ite_eq', Finset.mem_univ, if_true, Finset.mul_sum]
    congr 1
    exact Finset.sum_congr rfl (fun l _ => by ring)
  rw [h1, he]
  simp only [reflM, Matrix.one_apply]
  ring

/-- The algebra of one reflection: `e = (x + a·e_k) / d` with `a² = ‖x‖²` and `d² = ‖x +
a·e_k‖² ≠ 0` has unit length, and `I - 2·e·eᵗ` maps `x` to `-a·e_k`. -/
theorem reflect_column {K : Type} [Field K] {M : Nat} (x e v : Fin M → K) (a d : K) (k : Fin M)
    (ha : a * a = ∑ l, x l * x l)
    (hv : ∀ i, v i = x i + a * (if i = k then 1 else 0))
    (hd : d * d = ∑ l, v l * v l) (hd0 : d ≠ 0) (he : ∀ i, e i = v i / d) :
    (∑ l, e l * e l = 1) ∧
      ∀ i, x i - 2 * e i * ∑ l, e l * x l = -a * (if i = k then 1 else 0) := by
  have hdd : d * d ≠ 0 := mul_ne_zero hd0 hd0
  have hee : ∑ l, e l * e l = 1 := by
    have : ∀ l, e l * e l = v l * v l / (d * d) := fun l => by
      rw [he l]; field_simp
    rw [Finset.sum_congr rfl (fun l _ => this l), ← Finset.sum_div, ← hd]
    exact div_self hdd
  refine ⟨hee, ?_⟩
  have hvx : ∑ l, v l * v l = 2 * ∑ l, v l * x l := by
    have h0 : ∑ l, (v l * v l - 2 * (v l * x l)) = 0 := by
      have : ∀ l, v l * v l - 2 * (v l * x l)
          = a * a * (if l = k then 1 else 0) - x l * x l := fun l => by
        rw [hv l]
        split_ifs <;> ring
      rw [Finset.sum_congr rfl (fun l _ => this l), Finset.sum_sub_distrib, ← Finset.mul_sum,
        Finset.sum_ite_eq', if_pos (Finset.mem_univ k), mul_one, ha, sub_self]
    rw [Finset.sum_sub_distrib, ← Finset.mul_sum] at h0
    exact sub_eq_zero.mp h0
  intro i
  have hex : ∑ l, e l * x l = (∑ l, v l * x l) / d := by
    rw [Finset.sum_div]
    exact Finset.sum_congr rfl (fun l _ => by rw [he l]; ring)
  have h2 : 2 * e i * ∑ l, e l * x l = v i := by
    rw [hex, he i]
    have : 2 * (v i / d) * ((∑ l, v l * x l) / d) = v i * (2 * ∑ l, v l * x l) / (d * d) := by
      field_simp
      ring
    rw [this, ← hvx, ← hd]
    field_simp
  rw [h2, hv i]
  ring

/-! ## One step of the reduction -/

/-- A sum of squares is not negative. -/
theorem sumsq_nonneg {K : Type} [LinearOrderedField K] (f : Nat → K) (n : Nat) :
    0 ≤ sumsq f n := by
  rw [sumsq_eq_sum]
  exact Finset.sum_nonneg (fun l _ => mul_self_nonneg _)

/-- With an exact square root, `a² = ‖x‖²` whichever sign was chosen. -/
theorem hh_a_mul_self {K : Type} [LinearOrderedField K] (sqrt : K → K)
    (hsq : ∀ s, 0 ≤ s → sqrt s * sqrt s = s) (m z : mat K) (k : Nat) :
    hh_a sqrt m z k * hh_a sqrt m z k = sumsq (hh_x z k) m.m := by
  unfold hh_a
  split_ifs
  · rw [neg_mul_neg]; exact hsq _ (sumsq_nonneg _ _)
  · exact hsq _ (sumsq_nonneg _ _)

/-- The vector `x` of step `k` vanishes above row `k`. -/
theorem hh_x_below {K : Type} [Zero K] [One K] (z : mat K) (k i : Nat) (hi : i < k) :
    hh_x z k i = 0 := by
  unfold hh_x
  rw [matrix_minor_eq]
  simp only
  split_ifs <;> first | rfl | omega

/-- From row `k` on, the vector `x` of step `k` is column `k` of the working matrix. -/
theorem hh_x_from {K : Type} [Zero K] [One K] (z : mat K) (k i : Nat) (hk : k ≤ i)
    (hi : i < z.m) (hkn : k < z.n) : hh_x z k i = z.v i k := by
  unfold hh_x
  rw [matrix_minor_eq]
  simp only
  split_ifs <;> first | rfl | omega

/-- The normalised vector `e` of step `k` vanishes above row `k`. -/
theorem hh_e_below {K : Type} [LinearOrderedField K] (sqrt : K → K) (m z : mat K) (k i : Nat)
    (hi : i < k) : hh_e sqrt m z k i = 0 := by
  have hne : i ≠ k := by omega
  simp [hh_e, hh_v, hh_x_below z k i hi, hne]

/-- The trailing block of the `k`-th minor is the trailing block of the matrix. -/
theorem matrix_minor_block {K : Type} [Zero K] [One K] (z : mat K) (k i j : Nat) (hki : k ≤ i)
    (hi : i < z.m) (hkj : k ≤ j) (hj : j < z.n) : (matrix_minor z k).v i j = z.v i j := by
  rw [matrix_minor_eq]
  simp only
  split_ifs <;> first | rfl | omega

/-- One iteration of the first loop keeps the invariant: the reflector is an involution,
the trailing block of the new working matrix is that of the reflected matrix `B`,
and column `k` of the reflected matrix vanishes below the diagonal. -/
theorem hh_step_inv {K : Type} [LinearOrderedField K] (sqrt : K → K)
    (hsq : ∀ s, 0 ≤ s → sqrt s * sqrt s = s) (m z : mat K) (k : Nat)
    (hk : k < m.m) (hkn : k < m.n) (hzm : z.m = m.m) (hzn : z.n = m.n)
    (hd0 : hh_d sqrt m z k ≠ 0) (B : Matrix (Fin m.m) (Fin m.n) K)
    (I1 : ∀ (i : Fin m.m) (j : Fin m.n), k ≤ i.val → k ≤ j.val → z.v i.val j.val = B i j)
    (I2 : ∀ (i : Fin m.m) (j : Fin m.n), j.val < k → j.val < i.val → B i j = 0) :
    reflM (fun i : Fin m.m => hh_e sqrt m z k i.val)
        * reflM (fun i : Fin m.m => hh_e sqrt m z k i.val) = 1 ∧
      (∀ (i : Fin m.m) (j : Fin m.n), k + 1 ≤ i.val → k + 1 ≤ j.val →
        (reflM (fun i : Fin m.m => hh_e sqrt m z k i.val)
          * toM m.m m.n (matrix_minor z k)) i j
        = (reflM (fun i : Fin m.m => hh_e sqrt m z k i.val) * B) i j) ∧
      (∀ (i : Fin m.m) (j : Fin m.n), j.val < k + 1 → j.val < i.val →
        (reflM (fun i : Fin m.m => hh_e sqrt m z k i.val) * B) i j = 0) := by
  obtain ⟨hee, hcol⟩ := reflect_column (fun i : Fin m.m => hh_x z k i.val)
    (fun i : Fin m.m => hh_e sqrt m z k i.val) (fun i : Fin m.m => hh_v sqrt m z k i.val)
    (hh_a sqrt m z k) (hh_d sqrt m z k) ⟨k, hk⟩
    (by rw [hh_a_mul_self sqrt hsq, sumsq_eq_sum])
    (fun i => by simp only [hh_v, Fin.ext_iff])
    (by rw [← sumsq_eq_sum]; exact hsq _ (sumsq_nonneg _ _))
    hd0 (fun i => rfl)
  refine ⟨reflM_mul_self _ hee, ?_, ?_⟩
  · intro i j hi hj
    rw [reflM_mul_apply, reflM_mul_apply]
    have h1 : toM m.m m.n (matrix_minor z k) i j = B i j := by
      simp only [toM]
      rw [matrix_minor_block z k i j (by omega) (by rw [hzm]; exact i.isLt) (by omega)
        (by rw [hzn]; exact j.isLt)]
      exact I1 i j (by omega) (by omega)
    have h2 : ∑ l : Fin m.m, hh_e sqrt m z k l.val * toM m.m m.n (matrix_minor z k) l j
        = ∑ l : Fin m.m, hh_e sqrt m z k l.val * B l j := by
      refine Finset.sum_congr rfl (fun l _ => ?_)
      by_cases hl : l.val < k
      · rw [hh_e_below sqrt m z k l hl, zero_mul, zero_mul]
      · simp only [toM]
        rw [matrix_minor_block z k l j (by omega) (by rw [hzm]; exact l.isLt) (by omega)
          (by rw [hzn]; exact j.isLt), I1 l j (by omega) (by omega)]
    rw [h1, h2]
  · intro i j hj hi
    rw [reflM_mul_apply]
    by_cases hjk : j.val < k
    · have h2 : ∑ l : Fin m.m, hh_e sqrt m z k l.val * B l j = 0 := by
        refine Finset.sum_eq_zero (fun l _ => ?_)
        by_cases hl : l.val < k
        · rw [hh_e_below sqrt m z k l hl, zero_mul]
        · rw [I2 l j hjk (by omega), mul_zero]
      rw [h2, I2 i j hjk hi, mul_zero, sub_zero]
    · have hjk' : j.val = k := by omega
      have h2 : ∑ l : Fin m.m, hh_e sqrt m z k l.val * B l j
          = ∑ l : Fin m.m, hh_e sqrt m z k l.val * hh_x z k l.val := by
        refine Finset.sum_congr rfl (fun l _ => ?_)
        by_cases hl : l.val < k
        · rw [hh_e_below sqrt m z k l hl, zero_mul, zero_mul]
        · rw [hh_x_from z k l (by omega) (by rw [hzm]; exact l.isLt) (by rw [hzn]; exact hkn),
            ← I1 l j (by omega) (by omega), hjk']
      have h3 : B i j = hh_x z k i.val := by
        rw [hh_x_from z k i (by omega) (by rw [hzm]; exact i.isLt) (by rw [hzn]; exact hkn),
          ← I1 i j (by omega) (by omega), hjk']
      rw [h2, h3]
      have := hcol i
      simp only at this
      rw [this]
      have hne : i ≠ ⟨k, hk⟩ := by
        intro h
        have := congrArg Fin.val h
        simp only at this
        omega
      rw [if_neg hne, mul_zero]

/-! ## The invariant of the first loop -/

/-- The product of the first `k` slots reads only those slots. -/
theorem prodQ_congr {K : Type} [Ring K] (M : Nat) (q q' : Nat → Option (mat K)) (k : Nat)
    (h : ∀ j, j < k → q j = q' j) : prodQ M q k = prodQ M q' k := by
  induction k with
  | zero => rfl
  | succ k ih =>
    simp only [prodQ]
    rw [h k (Nat.lt_succ_self k), ih (fun j hj => h j (Nat.lt_succ_of_lt hj))]

/-- One more factor on the left of the product. -/
theorem prodQ_succ {K : Type} [Ring K] (M : Nat) (q : Nat → Option (mat K)) (k : Nat)
    (qk : mat K) (h : q k = some qk) : prodQ M q (k + 1) = toM M M qk * prodQ M q k := by
  simp only [prodQ, h]

/-- The second loop accumulates the product `q[J] · … · q[0]`. -/
theorem hh_acc_prod {K : Type} [Ring K] (M : Nat) (q : Nat → Option (mat K))
    (J : Nat) (hq : ∀ j, j ≤ J → ∃ qj, q j = some qj ∧ qj.m = M ∧ qj.n = M) :
    ∃ P, hh_acc q J = some P ∧ P.m = M ∧ P.n = M ∧
      toM M M P = prodQ M q (J + 1) := by
  induction J with
  | zero =>
    obtain ⟨q0, h0, h0m, h0n⟩ := hq 0 (Nat.le_refl 0)
    refine ⟨q0, h0, h0m, h0n, ?_⟩
    rw [prodQ_succ M q 0 q0 h0]
    simp [prodQ]
  | succ J ih =>
    obtain ⟨P, hP, hPm, hPn, hPM⟩ := ih (fun j hj => hq j (Nat.le_succ_of_le hj))
    obtain ⟨qj, hqj, hqm, hqn⟩ := hq (J + 1) (Nat.le_refl _)
    have hl : hh_acc q (J + 1) = matrix_mul qj P := by
      simp only [hh_acc, hP, hqj, Option.some_bind]
    have hmul := matrix_mul_eq qj P (by rw [hqn, hPm])
    rw [hmul] at hl
    obtain ⟨h1, h2, h3⟩ := toM_matrix_mul M M M qj P _ hqm hqn hPm hPn hmul
    refine ⟨_, hl, h1, h2, ?_⟩
    rw [h3, hPM, prodQ_succ M q (J + 1) qj hqj]

/-- The invariant of the first loop when no step divides by zero and the square root is
exact: the product `P` of the reflectors built so far is orthogonal, the trailing
block of the working matrix is that of `P · m`, and the first `k` columns of `P · m`
vanish below the diagonal. -/
theorem hh_loop_inv {K : Type} [LinearOrderedField K] (sqrt : K → K)
    (hsq : ∀ s, 0 ≤ s → sqrt s * sqrt s = s) (m : mat K) (k : Nat)
    (hk : k ≤ householder_steps m) (st : hh_state K)
    (hst : hh_loop sqrt m k = some st) (hdiv : ∀ d ∈ st.divs, d ≠ 0) :
    (prodQ m.m st.q k).transpose * prodQ m.m st.q k = 1 ∧
      prodQ m.m st.q k * (prodQ m.m st.q k).transpose = 1 ∧
      (∀ (i : Fin m.m) (j : Fin m.n), k ≤ i.val → k ≤ j.val →
        st.z.v i.val j.val = (prodQ m.m st.q k * toM m.m m.n m) i j) ∧
      (∀ (i : Fin m.m) (j : Fin m.n), j.val < k → j.val < i.val →
        (prodQ m.m st.q k * toM m.m m.n m) i j = 0) := by
  induction k generalizing st with
  | zero =>
    simp only [hh_loop, Option.some.injEq] at hst
    subst hst
    refine ⟨by simp [prodQ], by simp [prodQ], ?_, ?_⟩
    · intro i j _ _
      simp [prodQ, toM]
    · intro i j hj
      omega
  | succ k ih =>
    obtain ⟨st0, hl, hzm, hzn, hq, -, -⟩ := hh_loop_shape sqrt m k
    have hb := hh_body_some sqrt m st0 k hzm
    have hl' : hh_loop sqrt m (k + 1) = hh_body sqrt m st0 k := by
      simp only [hh_loop, hl, Option.some_bind]
    rw [hl', hb, Option.some.injEq] at hst
    subst hst
    simp only [List.mem_append, List.mem_singleton] at hdiv
    have hd0 : hh_d sqrt m st0.z k ≠ 0 := hdiv _ (Or.inr rfl)
    obtain ⟨O1, O2, I1, I2⟩ := ih (by omega) st0 hl (fun d hd => hdiv d (Or.inl hd))
    have hks : k < householder_steps m := hk
    unfold householder_steps at hks
    have hkm : k < m.m := by omega
    have hkn : k < m.n := by omega
    obtain ⟨HH, J1, J2⟩ := hh_step_inv sqrt hsq m st0.z k hkm hkn hzm hzn hd0
      (prodQ m.m st0.q k * toM m.m m.n m) I1 I2
    have hP : prodQ m.m (Function.update st0.q k (some (reflector m.m (hh_e sqrt m st0.z k))))
          (k + 1)
        = reflM (fun i : Fin m.m => hh_e sqrt m st0.z k i.val) * prodQ m.m st0.q k := by
      rw [prodQ_succ m.m _ k (reflector m.m (hh_e sqrt m st0.z k)) (by simp), toM_reflector,
        prodQ_congr m.m _ st0.q k (fun j hj => by
          have : j ≠ k := by omega
          simp [Function.update_noteq this])]
    simp only [hP]
    refine ⟨?_, ?_, ?_, ?_⟩
    · rw [Matrix.transpose_mul, reflM_transpose, Matrix.mul_assoc,
        ← Matrix.mul_assoc (reflM _) (reflM _), HH, Matrix.one_mul, O1]
    · rw [Matrix.transpose_mul, reflM_transpose, Matrix.mul_assoc,
        ← Matrix.mul_assoc (prodQ m.m st0.q k), O2, Matrix.one_mul, HH]
    · intro i j hi hj
      rw [Matrix.mul_assoc, ← J1 i j hi hj]
      have hjn : j.val < st0.z.n := by rw [hzn]; exact j.isLt
      simp only [if_pos (And.intro i.isLt hjn), dot_upto_eq_sum, Matrix.mul_apply,
        ← toM_reflector]
      rfl
    · intro i j hj hi
      rw [Matrix.mul_assoc]
      exact J2 i j hj hi

/-! ## The factors returned by `householder` -/

/-- The outcome of `householder` on Mathlib matrices, for an exact square root and
a run that never divides by zero: `R` is `P · m` and `Q` is `Pᵗ` for an orthogonal
`P`, and `P · m` vanishes below the diagonal. -/
theorem hh_factors {K : Type} [LinearOrderedField K] (sqrt : K → K)
    (hsq : ∀ s, 0 ≤ s → sqrt s * sqrt s = s) (m : mat K) (hM : 2 ≤ m.m) (hN : 1 ≤ m.n)
    (hz : hh_nonzero sqrt m) :
    ∃ (r : hh_pair K) (P : Matrix (Fin m.m) (Fin m.m) K),
      hh_result sqrt m = some r ∧
      r.Q.m = m.m ∧ r.Q.n = m.m ∧ r.R.m = m.m ∧ r.R.n = m.n ∧
      toM m.m m.m r.Q = P.transpose ∧ toM m.m m.n r.R = P * toM m.m m.n m ∧
      P.transpose * P = 1 ∧ P * P.transpose = 1 ∧
      ∀ (i : Fin m.m) (j : Fin m.n), j.val < i.val → (P * toM m.m m.n m) i j = 0 := by
  obtain ⟨st, P, hst, hP, hPm, hPn, hres⟩ := hh_result_eq sqrt m hM hN
  obtain ⟨st1, hst1, -, -, hq, -, -⟩ := hh_loop_shape sqrt m (householder_steps m)
  rw [hst, Option.some.injEq] at hst1
  subst hst1
  have hpos := householder_steps_pos m hM hN
  obtain ⟨P1, hP1, -, -, hPM⟩ := hh_acc_prod m.m st.q (householder_steps m - 1)
    (fun j hj => hq j (by omega))
  rw [hP, Option.some.injEq] at hP1
  subst hP1
  rw [Nat.sub_add_cancel hpos] at hPM
  obtain ⟨st2, hst2, hne⟩ := hz
  rw [hst, Option.some.injEq] at hst2
  subst hst2
  obtain ⟨O1, O2, -, I2⟩ := hh_loop_inv sqrt hsq m (householder_steps m)
    (Nat.le_refl _) st hst hne
  refine ⟨_, prodQ m.m st.q (householder_steps m), hres, ?_, ?_, rfl, rfl, ?_, ?_, O1, O2, ?_⟩
  · rw [matrix_transpose_eq]; exact hPm
  · rw [matrix_transpose_eq]; exact hPn
  · rw [toM_transpose m.m P hPm, hPM]
  · rw [← hPM]
    have h := (toM_matrix_mul m.m m.m m.n P m _ hPm hPn rfl rfl (matrix_mul_eq P m hPn)).2.2
    simp only [hPm, hPn] at h
    exact h
  · intro i j hji
    by_cases hj : j.val < householder_steps m
    · exact I2 i j hj hji
    · have := i.isLt
      have := j.isLt
      unfold householder_steps at hj
      omega

/-- On the values, exact real arithmetic and no division by zero: the product of
the computed `Q` and `R` has the entries of the input. -/
theorem hh_reconstruction (A : mat ℝ) (hM : 2 ≤ A.m) (hN : 1 ≤ A.n)
    (hz : hh_nonzero Real.sqrt A) :
    ∃ r P, hh_result Real.sqrt A = some r ∧ matrix_mul r.Q r.R = some P ∧
      P.m = A.m ∧ P.n = A.n ∧ ∀ i j, i < A.m → j < A.n → P.v i j = A.v i j := by
  obtain ⟨r, P, hr, hQm, hQn, hRm, hRn, hQ, hR, O1, -, -⟩ :=
    hh_factors Real.sqrt (fun s hs => Real.mul_self_sqrt hs) A hM hN hz
  have hmul := matrix_mul_eq r.Q r.R (by rw [hQn, hRm])
  obtain ⟨h1, h2, h3⟩ := toM_matrix_mul A.m A.m A.n r.Q r.R _ hQm hQn hRm hRn hmul
  refine ⟨r, _, hr, hmul, h1, h2, ?_⟩
  intro i j hi hj
  have := congrFun (congrFun h3 ⟨i, hi⟩) ⟨j, hj⟩
  rw [hQ, hR, ← Matrix.mul_assoc, O1, Matrix.one_mul] at this
  exact this

/-- On the values, exact real arithmetic and no division by zero: the computed `Q`
satisfies `Qᵗ · Q = I`. -/
theorem hh_orthogonal (A : mat ℝ) (hM : 2 ≤ A.m) (hN : 1 ≤ A.n)
    (hz : hh_nonzero Real.sqrt A) :
    ∃ r P, hh_result Real.sqrt A = some r ∧
      matrix_mul (matrix_transpose r.Q) r.Q = some P ∧ P.m = A.m ∧ P.n = A.m ∧
      ∀ i j, i < A.m → j < A.m → P.v i j = if i = j then 1 else 0 := by
  obtain ⟨r, P, hr, hQm, hQn, -, -, hQ, -, -, O2, -⟩ :=
    hh_factors Real.sqrt (fun s hs => Real.mul_self_sqrt hs) A hM hN hz
  have hTm : (matrix_transpose r.Q).m = A.m := by rw [matrix_transpose_eq]; exact hQm
  have hTn : (matrix_transpose r.Q).n = A.m := by rw [matrix_transpose_eq]; exact hQn
  have hmul := matrix_mul_eq (matrix_transpose r.Q) r.Q (by rw [hTn, hQm])
  obtain ⟨h1, h2, h3⟩ :=
    toM_matrix_mul A.m A.m A.m (matrix_transpose r.Q) r.Q _ hTm hTn hQm hQn hmul
  refine ⟨r, _, hr, hmul, h1, h2, ?_⟩
  intro i j hi hj
  have := congrFun (congrFun h3 ⟨i, hi⟩) ⟨j, hj⟩
  rw [toM_transpose A.m r.Q hQm, hQ, Matrix.transpose_transpose, O2] at this
  rw [Matrix.one_apply] at this
  simpa [toM, Fin.ext_iff] using this

/-- On the values, exact real arithmetic and no division by zero: the computed `R`
vanishes below the diagonal. -/
theorem hh_upper_triangular (A : mat ℝ) (hM : 2 ≤ A.m) (hN : 1 ≤ A.n)
    (hz : hh_nonzero Real.sqrt A) :
    ∃ r, hh_result Real.sqrt A = some r ∧
      ∀ i j, i < A.m → j < A.n → j < i → r.R.v i j = 0 := by
  obtain ⟨r, P, hr, -, -, -, -, -, hR, -, -, hT⟩ :=
    hh_factors Real.sqrt (fun s hs => Real.mul_self_sqrt hs) A hM hN hz
  refine ⟨r, hr, ?_⟩
  intro i j hi hj hji
  have := hT ⟨i, hi⟩ ⟨j, hj⟩ hji
  rw [← hR] at this
  exact this

/-- On the values: the computed `Q` is `M × M` and the computed `R` is `M × N`. -/
theorem hh_shape {K : Type} [LinearOrderedField K] (sqrt : K → K) (m : mat K)
    (hM : 2 ≤ m.m) (hN : 1 ≤ m.n) :
    ∃ r, hh_result sqrt m = some r ∧ r.Q.m = m.m ∧ r.Q.n = m.m ∧
      r.R.m = m.m ∧ r.R.n = m.n := by
  obtain ⟨st, P, -, -, hPm, hPn, h⟩ := hh_result_eq sqrt m hM hN
  refine ⟨_, h, ?_, ?_, rfl, rfl⟩
  · rw [matrix_transpose_eq]; exact hPm
  · rw [matrix_transpose_eq]; exact hPn

/-- A sum of squares with a non-zero term is positive. -/
theorem sumsq_pos {K : Type} [LinearOrderedField K] (f : Nat → K) (n i : Nat) (hi : i < n)
    (hf : f i ≠ 0) : 0 < sumsq f n := by
  rw [sumsq_eq_sum]
  have h1 : f i * f i ≤ ∑ l : Fin n, f l.val * f l.val :=
    Finset.single_le_sum (f := fun l : Fin n => f l.val * f l.val)
      (fun l _ => mul_self_nonneg _) (Finset.mem_univ (⟨i, hi⟩ : Fin n))
  have h2 : 0 < f i * f i := mul_self_pos.mpr hf
  exact lt_of_lt_of_le h2 h1

/-- Below the pivot the vector `x + a·e_k` of step 0 is the first column of the input. -/
theorem hh_v_zero {K : Type} [LinearOrderedField K] (sqrt : K → K) (m : mat K) (i : Nat)
    (hi0 : 0 < i) (hi : i < m.m) (hn : 0 < m.n) : hh_v sqrt m m 0 i = m.v i 0 := by
  have hne : i ≠ 0 := by omega
  simp only [hh_v, hh_x_from m 0 i (Nat.zero_le i) hi hn, hne, if_false, mul_zero, add_zero]

/-- Over the reals, a run of a single step divides by a non-zero norm as soon as
the first column has a non-zero entry below the pivot. -/
theorem hh_nonzero_one_step (m : mat ℝ) (hs : householder_steps m = 1) (i : Nat)
    (hi0 : 0 < i) (hi : i < m.m) (hn : 0 < m.n) (hv : m.v i 0 ≠ 0) :
    hh_nonzero Real.sqrt m := by
  have hb := hh_body_some Real.sqrt m { z := m, q := fun _ => none, divs := [] } 0 rfl
  have hl : hh_loop Real.sqrt m 1 = hh_body Real.sqrt m
      { z := m, q := fun _ => none, divs := [] } 0 := rfl
  rw [hb] at hl
  rw [← hs] at hl
  refine ⟨_, hl, ?_⟩
  intro d hd
  simp only [List.nil_append, List.mem_singleton] at hd
  subst hd
  unfold hh_d
  refine Real.sqrt_ne_zero'.mpr (sumsq_pos _ m.m i hi ?_)
  rw [hh_v_zero Real.sqrt m i hi0 hi hn]
  exact hv

/-- The first two iterations on the values: the working matrix of the second one
is the first reflector times the input, and the divisors are the two norms. -/
theorem hh_loop_two {K : Type} [LinearOrderedField K] (sqrt : K → K) (m : mat K) :
    ∃ Z1 st, Z1.m = m.m ∧ Z1.n = m.n ∧
      (∀ a b, a < m.m → b < m.n →
        Z1.v a b = dot_upto (reflector m.m (hh_e sqrt m m 0)) (matrix_minor m 0) a b m.m) ∧
      hh_loop sqrt m 2 = some st ∧ st.divs = [hh_d sqrt m m 0, hh_d sqrt m Z1 1] := by
  have hb0 := hh_body_some sqrt m { z := m, q := fun _ => none, divs := [] } 0 rfl
  have hl1 : hh_loop sqrt m 1 = hh_body sqrt m { z := m, q := fun _ => none, divs := [] } 0 :=
    rfl
  rw [hb0] at hl1
  have hl2 : hh_loop sqrt m 2 = (hh_loop sqrt m 1).bind (fun st => hh_body sqrt m st 1) := rfl
  rw [hl1, Option.some_bind, hh_body_some sqrt m _ 1 rfl] at hl2
  refine ⟨_, _, ?_, ?_, ?_, hl2, rfl⟩
  · rfl
  · rfl
  · intro a b ha hb
    simp only [if_pos (And.intro ha hb)]

/-- Both steps of the run on the 3 × 2 example divide by a norm of at least 1. -/
theorem exR32_nonzero : hh_nonzero Real.sqrt exR32 := by
  obtain ⟨Z1, st, hZm, hZn, hZv, hl, hdivs⟩ := hh_loop_two Real.sqrt exR32
  have hs : householder_steps exR32 = 2 := by decide
  refine ⟨st, by rw [hs]; exact hl, ?_⟩
  intro d hd
  rw [hdivs] at hd
  simp only [List.mem_cons, List.mem_singleton, List.not_mem_nil, or_false] at hd
  have hd0 : hh_d Real.sqrt exR32 exR32 0 ≠ 0 := by
    unfold hh_d
    refine Real.sqrt_ne_zero'.mpr (sumsq_pos _ exR32.m 1 (by decide) ?_)
    rw [hh_v_zero Real.sqrt exR32 1 (by decide) (by decide) (by decide)]
    simp [exR32, mat_of_rows]
  rcases hd with hd | hd
  · rw [hd]; exact hd0
  · rw [hd]
    unfold hh_d
    refine Real.sqrt_ne_zero'.mpr (sumsq_pos _ exR32.m 2 (by decide) ?_)
    have he2 : hh_e Real.sqrt exR32 exR32 0 2 = 0 := by
      simp only [hh_e, hh_v_zero Real.sqrt exR32 2 (by decide) (by decide) (by decide)]
      simp [exR32, mat_of_rows]
    have hZ21 : Z1.v 2 1 = 1 := by
      rw [hZv 2 1 (by decide) (by decide)]
      have hm : exR32.m = 3 := rfl
      rw [hm]
      generalize hh_e Real.sqrt exR32 exR32 0 = e at he2
      simp [dot_upto, List.range_succ, matrix_minor_eq, reflector, he2, exR32, mat_of_rows]
    have hv : hh_v Real.sqrt exR32 Z1 1 2 = 1 := by
      simp only [hh_v, hh_x_from Z1 1 2 (by decide) (by rw [hZm]; decide)
        (by rw [hZn]; decide), hZ21]
      simp
    rw [hv]
    exact one_ne_zero

/-! ## The run of `householder` in storage -/

/-- The heap-level body of the first loop in closed form, on a state whose
pointers `m` and `z` refer to live matrices: three matrices are allocated (the
minor, the reflector and the product), the minor is released, and so is the
previous working matrix unless it is the input. -/
theorem householder_body_eq {K : Type} [LinearOrderedField K] (sqrt : K → K) (pm : Nat)
    (st : hstate K) (k : Nat) (m zv : mat K)
    (hm : st.h.cells pm = some m) (hz : st.h.cells st.z = some zv)
    (hpm : pm < st.h.next) (hzlt : st.z < st.h.next) (hzm : zv.m = m.m) :
    householder_body sqrt pm st k = some
      { h := { cells := Function.update (Function.update (Function.update
                  (if st.z ≠ pm then
                    Function.update
                      (Function.update st.h.cells st.h.next (some (matrix_minor zv k)))
                      st.z none
                   else Function.update st.h.cells st.h.next (some (matrix_minor zv k)))
                  (st.h.next + 1) (some (reflector m.m (hh_e sqrt m zv k))))
                  (st.h.next + 2) (some (⟨m.m, zv.n, fun a b =>
                    if a < m.m ∧ b < zv.n then
                      dot_upto (reflector m.m (hh_e sqrt m zv k)) (matrix_minor zv k) a b m.m
                    else 0⟩ : mat K)))
                  st.h.next none,
               next := st.h.next + 3 },
        z := st.h.next + 2,
        q := Function.update st.q k (some (st.h.next + 1)),
        divs := st.divs ++ [hh_d sqrt m zv k] } := by
  have hmin : (matrix_minor zv k).m = m.m := by rw [matrix_minor_eq]; exact hzm
  have hminn : (matrix_minor zv k).n = zv.n := by rw [matrix_minor_eq]
  have hmul := matrix_mul_eq (reflector m.m (hh_e sqrt m zv k)) (matrix_minor zv k)
    (show (reflector m.m (hh_e sqrt m zv k)).n = (matrix_minor zv k).m from hmin.symm)
  have hne : st.h.next ≠ pm := by omega
  have h01 : st.h.next ≠ st.h.next + 1 := by omega
  have h02 : st.h.next ≠ st.h.next + 1 + 1 := by omega
  unfold householder_body
  simp only [heap.load, heap.minor, heap.alloc, heap.mul, matrix_delete]
  by_cases hzp : st.z = pm
  · have hzv : zv = m := by
      rw [hzp, hm] at hz
      exact (Option.some.inj hz).symm
    subst hzv
    simp only [hm, hz, Option.some_bind, Option.map_some', hzp, ne_eq, not_true_eq_false,
      if_false, Function.update_same, body_a_eq sqrt zv zv k rfl, body_d_eq sqrt zv zv k rfl,
      body_q_eq sqrt zv zv k rfl, Function.update_noteq h01, Function.update_noteq h02, hmul,
      hne, not_false_eq_true, if_true, hminn, Nat.add_assoc, Nat.reduceAdd]
    rfl
  · have hzn : st.h.next ≠ st.z := by omega
    have hzn1 : st.h.next + 1 ≠ st.z := by omega
    have hzn2 : st.h.next + 1 + 1 ≠ st.z := by omega
    simp only [hm, hz, Option.some_bind, Option.map_some', hzp, ne_eq, not_false_eq_true,
      if_true, Function.update_same, body_a_eq sqrt m zv k hzm, body_d_eq sqrt m zv k hzm,
      body_q_eq sqrt m zv k hzm, Function.update_noteq h01, Function.update_noteq h02, hmul,
      hne, hminn, Nat.add_assoc, Nat.reduceAdd, Function.update_noteq hzn,
      Function.update_noteq hzn.symm]
    rfl

/-- The first loop in storage follows the values of `hh_loop`: after `k`
iterations the heap has grown by `3 * k` addresses, the input is untouched, `z`
points to the working matrix and `q[j]`, for `j < k`, to the reflector of step
`j`; every other slot of `q` is unassigned. -/
theorem householder_loop_sim {K : Type} [LinearOrderedField K] (sqrt : K → K)
    (h0 : heap K) (pm : Nat) (m : mat K) (hm : h0.cells pm = some m) (hpm : pm < h0.next)
    (k : Nat) :
    ∃ st stv, householder_loop sqrt pm h0 k = some st ∧ hh_loop sqrt m k = some stv ∧
      st.divs = stv.divs ∧ st.h.next = h0.next + 3 * k ∧ st.h.cells pm = some m ∧
      st.z = (if k = 0 then pm else h0.next + 3 * k - 1) ∧
      st.h.cells st.z = some stv.z ∧
      (∀ j, j < k → st.q j = some (h0.next + 3 * j + 1) ∧
        st.h.cells (h0.next + 3 * j + 1) = stv.q j) ∧
      (∀ j, k ≤ j → st.q j = none) := by
  induction k with
  | zero =>
    exact ⟨_, _, rfl, rfl, rfl, rfl, hm, rfl, hm, fun j hj => absurd hj (Nat.not_lt_zero j),
      fun _ _ => rfl⟩
  | succ k ih =>
    obtain ⟨st, stv, hl, hlv, hdiv, hnext, hcm, hz, hcz, hq, hnone⟩ := ih
    obtain ⟨stv0, hlv0, hzm, hzn, hqv, -, -⟩ := hh_loop_shape sqrt m k
    rw [hlv, Option.some.injEq] at hlv0
    subst hlv0
    have hpm' : pm < st.h.next := by omega
    have hzlt : st.z < st.h.next := by
      rw [hz]; split_ifs <;> omega
    have hb := householder_body_eq sqrt pm st k m stv.z hcm hcz hpm' hzlt hzm
    have hbv := hh_body_some sqrt m stv k hzm
    have hl' : householder_loop sqrt pm h0 (k + 1) = householder_body sqrt pm st k := by
      simp only [householder_loop, hl, Option.some_bind]
    have hlv' : hh_loop sqrt m (k + 1) = hh_body sqrt m stv k := by
      simp only [hh_loop, hlv, Option.some_bind]
    rw [hb] at hl'
    rw [hbv] at hlv'
    refine ⟨_, _, hl', hlv', ?_, ?_, ?_, ?_, ?_, ?_, ?_⟩
    · simp only [hdiv]
    · simp only [hnext]; omega
    · simp only
      have h1 : pm ≠ st.h.next := by omega
      have h2 : pm ≠ st.h.next + 1 := by omega
      have h3 : pm ≠ st.h.next + 2 := by omega
      rw [Function.update_noteq h1, Function.update_noteq h3, Function.update_noteq h2]
      by_cases hzp : st.z = pm
      · rw [if_neg (not_not.mpr hzp), Function.update_noteq h1, hcm]
      · rw [if_pos hzp, Function.update_noteq (Ne.symm hzp), Function.update_noteq h1, hcm]
    · simp only [hnext, Nat.succ_ne_zero, if_false]
      omega
    · simp only
      have h1 : st.h.next + 2 ≠ st.h.next := by omega
      rw [Function.update_noteq h1, Function.update_same]
    · intro j hj
      by_cases hjk : j = k
      · subst hjk
        rw [← hnext]
        have h1 : st.h.next + 1 ≠ st.h.next := by omega
        have h2 : st.h.next + 1 ≠ st.h.next + 2 := by omega
        simp only [Function.update_same, true_and]
        rw [Function.update_noteq h1, Function.update_noteq h2, Function.update_same]
      · obtain ⟨hq1, hq2⟩ := hq j (by omega)
        simp only [Function.update_noteq hjk, hq1, true_and]
        have h1 : h0.next + 3 * j + 1 ≠ st.h.next := by omega
        have h2 : h0.next + 3 * j + 1 ≠ st.h.next + 1 := by omega
        have h3 : h0.next + 3 * j + 1 ≠ st.h.next + 2 := by omega
        have h4 : h0.next + 3 * j + 1 ≠ st.z := by
          rw [hz]; split_ifs <;> omega
        rw [Function.update_noteq h1, Function.update_noteq h3, Function.update_noteq h2]
        by_cases hzp : st.z = pm
        · rw [if_neg (not_not.mpr hzp), Function.update_noteq h1, hq2]
        · rw [if_pos hzp, Function.update_noteq h4, Function.update_noteq h1, hq2]
    · intro j hj
      have hjk : j ≠ k := by omega
      simp only [Function.update_noteq hjk]
      exact hnone j (by omega)

/-- A product of two live matrices of matching shapes is allocated at the next
fresh address. -/
theorem heap_mul_eq {K : Type} [Zero K] [Add K] [Mul K] (h : heap K) (x y : Nat)
    (xv yv r : mat K) (hx : h.cells x = some xv) (hy : h.cells y = some yv)
    (hr : matrix_mul xv yv = some r) :
    h.mul x y = some (({ cells := Function.update h.cells h.next (some r),
                         next := h.next + 1 } : heap K), h.next) := by
  simp only [heap.mul, heap.load, hx, hy, hr, Option.some_bind, Option.map_some', heap.alloc]

/-- A product that reads a released matrix fails. -/
theorem heap_mul_freed {K : Type} [Zero K] [Add K] [Mul K] (h : heap K) (x y : Nat)
    (hx : h.cells x = none) : h.mul x y = none := by
  simp only [heap.mul, heap.load, hx, Option.none_bind]

/-- Releasing a live matrix empties its address. -/
theorem matrix_delete_eq {K : Type} (h : heap K) (p : Nat) (v : mat K)
    (hp : h.cells p = some v) :
    matrix_delete h p = some ({ cells := Function.update h.cells p none,
                                next := h.next } : heap K) := by
  simp only [matrix_delete, hp, Option.map_some']

/-- One iteration of the second loop. -/
theorem householder_acc_succ {K : Type} [Zero K] [Add K] [Mul K] (q : Nat → Option Nat)
    (h : heap K) (j : Nat) :
    householder_acc q h (j + 1) = (householder_acc q h j).bind (fun (h1, Q) =>
      (q (j + 1)).bind (fun qi =>
      (h1.mul qi Q).bind (fun (h2, z1) =>
      (if j + 1 > 1 then matrix_delete h2 Q else some h2).bind (fun h3 =>
      (matrix_delete h3 qi).map (fun h4 => (h4, z1)))))) := rfl

/-- The second loop in storage follows the values of `hh_acc`.  The slots
`q[j]`, `j < r`, point to live square matrices at the distinct addresses
`addr j`.  After `J < r` iterations `*Q` points to the accumulated product,
`J` addresses have been taken, and below the old `next` only `q[1] .. q[J]`
have been released. -/
theorem householder_acc_sim {K : Type} [Zero K] [Add K] [Mul K] (M : Nat)
    (q : Nat → Option Nat) (qv : Nat → Option (mat K)) (h : heap K) (r : Nat)
    (addr : Nat → Nat)
    (hq : ∀ j, j < r → q j = some (addr j) ∧
      ∃ v, qv j = some v ∧ v.m = M ∧ v.n = M ∧ h.cells (addr j) = some v)
    (haddr : ∀ j, j < r → addr j < h.next)
    (hinj : ∀ i j, i < r → j < r → addr i = addr j → i = j)
    (J : Nat) (hJ : J < r) :
    ∃ hJ' Q Qv, householder_acc q h J = some (hJ', Q) ∧ hh_acc qv J = some Qv ∧
      Qv.m = M ∧ Qv.n = M ∧ hJ'.next = h.next + J ∧
      Q = (if J = 0 then addr 0 else h.next + J - 1) ∧ hJ'.cells Q = some Qv ∧
      (∀ p, p < h.next → (∀ j, 1 ≤ j → j ≤ J → p ≠ addr j) →
        hJ'.cells p = h.cells p) := by
  induction J with
  | zero =>
    obtain ⟨h0, v, hv, hvm, hvn, hc⟩ := hq 0 hJ
    refine ⟨h, addr 0, v, ?_, hv, hvm, hvn, rfl, rfl, hc, fun _ _ _ => rfl⟩
    simp only [householder_acc, h0, Option.map_some']
  | succ J ih =>
    obtain ⟨hJ', Q, Qv, hacc, haccv, hQm, hQn, hnext, hQ, hcQ, hframe⟩ := ih (by omega)
    obtain ⟨hqi, v, hv, hvm, hvn, hc⟩ := hq (J + 1) hJ
    have hci : hJ'.cells (addr (J + 1)) = some v := by
      rw [hframe (addr (J + 1)) (haddr _ hJ) (fun j hj1 hj2 hne => by
        have := hinj (J + 1) j hJ (by omega) hne
        omega), hc]
    have hmulv := matrix_mul_eq v Qv (by rw [hvn, hQm])
    have hmul := heap_mul_eq hJ' (addr (J + 1)) Q v Qv _ hci hcQ hmulv
    have haccv' : hh_acc qv (J + 1) = matrix_mul v Qv := by
      simp only [hh_acc, haccv, hv, Option.some_bind]
    rw [hmulv] at haccv'
    have hi_lt : addr (J + 1) < hJ'.next := by
      have := haddr _ hJ
      omega
    have hi_ne : addr (J + 1) ≠ hJ'.next := by omega
    by_cases hJ0 : J = 0
    · have hQ' : Q = addr 0 := by rw [hQ, if_pos hJ0]
      have hacc' : householder_acc q h (J + 1) = some
          (({ cells := Function.update (Function.update hJ'.cells hJ'.next
                (some (⟨v.m, Qv.n, fun a b => if a < v.m ∧ b < Qv.n then dot_upto v Qv a b v.n
                  else 0⟩ : mat K))) (addr (J + 1)) none,
              next := hJ'.next + 1 } : heap K), hJ'.next) := by
        have hgt : ¬ (J + 1 > 1) := by omega
        rw [householder_acc_succ, hacc]
        simp only [hqi, Option.some_bind, hmul, hgt, if_false]
        rw [matrix_delete_eq _ (addr (J + 1)) v (by
          simp only [Function.update_noteq hi_ne, hci])]
        rfl
      refine ⟨_, _, _, hacc', haccv', hvm, hQn, ?_, ?_, ?_, ?_⟩
      · simp only [hnext]; omega
      · simp only [Nat.succ_ne_zero, if_false, hnext]; omega
      · simp only
        rw [Function.update_noteq (Ne.symm hi_ne), Function.update_same]
      · intro p hp hpj
        have h1 : p ≠ addr (J + 1) := hpj (J + 1) (by omega) (Nat.le_refl _)
        have h2 : p ≠ hJ'.next := by omega
        simp only
        rw [Function.update_noteq h1, Function.update_noteq h2]
        exact hframe p hp (fun j hj1 hj2 => by omega)
    · have hQ' : Q = h.next + J - 1 := by rw [hQ, if_neg hJ0]
      have hQ_ne : Q ≠ hJ'.next := by omega
      have hQi : addr (J + 1) ≠ Q := by
        have := haddr _ hJ
        omega
      have hacc' : householder_acc q h (J + 1) = some
          (({ cells := Function.update (Function.update (Function.update hJ'.cells hJ'.next
                (some (⟨v.m, Qv.n, fun a b => if a < v.m ∧ b < Qv.n then dot_upto v Qv a b v.n
                  else 0⟩ : mat K))) Q none) (addr (J + 1)) none,
              next := hJ'.next + 1 } : heap K), hJ'.next) := by
        have hgt : J + 1 > 1 := by omega
        rw [householder_acc_succ, hacc]
        simp only [hqi, Option.some_bind, hmul, hgt, if_true]
        rw [matrix_delete_eq _ Q Qv (by simp only [Function.update_noteq hQ_ne, hcQ])]
        simp only [Option.some_bind]
        rw [matrix_delete_eq _ (addr (J + 1)) v (by
          simp only [Function.update_noteq hQi, Function.update_noteq hi_ne, hci])]
        rfl
      refine ⟨_, _, _, hacc', haccv', hvm, hQn, ?_, ?_, ?_, ?_⟩
      · simp only [hnext]; omega
      · simp only [Nat.succ_ne_zero, if_false, hnext]; omega
      · simp only
        rw [Function.update_noteq (Ne.symm hi_ne), Function.update_noteq (Ne.symm hQ_ne),
          Function.update_same]
      · intro p hp hpj
        have h1 : p ≠ addr (J + 1) := hpj (J + 1) (by omega) (Nat.le_refl _)
        have h2 : p ≠ hJ'.next := by omega
        have h3 : p ≠ Q := by omega
        simp only
        rw [Function.update_noteq h1, Function.update_noteq h3, Function.update_noteq h2]
        exact hframe p hp (fun j hj1 hj2 => hpj j hj1 (by omega))

/-- What `matrix_delete` does to a heap in which the matrix is live. -/
theorem matrix_delete_spec {K : Type} (h : heap K) (p : Nat) (v : mat K)
    (hp : h.cells p = some v) :
    ∃ h', matrix_delete h p = some h' ∧ h'.next = h.next ∧ h'.cells p = none ∧
      ∀ p', p' ≠ p → h'.cells p' = h.cells p' := by
  refine ⟨_, matrix_delete_eq h p v hp, rfl, ?_, ?_⟩
  · simp only [Function.update_same]
  · intro p' hp'
    simp only [Function.update_noteq hp']

/-- What a product of two live matrices does to a heap. -/
theorem heap_mul_spec {K : Type} [Zero K] [Add K] [Mul K] (h : heap K) (x y : Nat)
    (xv yv r : mat K) (hx : h.cells x = some xv) (hy : h.cells y = some yv)
    (hr : matrix_mul xv yv = some r) :
    ∃ h', h.mul x y = some (h', h.next) ∧ h'.next = h.next + 1 ∧
      h'.cells h.next = some r ∧ ∀ p', p' ≠ h.next → h'.cells p' = h.cells p' := by
  refine ⟨_, heap_mul_eq h x y xv yv r hx hy hr, rfl, ?_, ?_⟩
  · simp only [Function.update_same]
  · intro p' hp'
    simp only [Function.update_noteq hp']

/-- What a transposition in place does to a heap in which the matrix is live. -/
theorem heap_transpose_spec {K : Type} (h : heap K) (p : Nat) (v : mat K)
    (hp : h.cells p = some v) :
    ∃ h', h.transpose p = some h' ∧ h'.next = h.next ∧
      h'.cells p = some (matrix_transpose v) ∧ ∀ p', p' ≠ p → h'.cells p' = h.cells p' := by
  refine ⟨{ cells := Function.update h.cells p (some (matrix_transpose v)), next := h.next },
    ?_, rfl, ?_, ?_⟩
  · simp only [heap.transpose, heap.load, heap.put, hp, Option.some_bind, Option.map_some']
  · simp only [Function.update_same]
  · intro p' hp'
    simp only [Function.update_noteq hp']

/-- The divisors of the run in storage are those of the values. -/
theorem householder_divs_eq {K : Type} [LinearOrderedField K] (sqrt : K → K)
    (h : heap K) (pm : Nat) (m : mat K) (hm : h.cells pm = some m) (hpm : pm < h.next) :
    householder_divs sqrt h pm =
      (hh_loop sqrt m (householder_steps m)).map (fun st => st.divs) := by
  obtain ⟨st, stv, hl, hlv, hdiv, -⟩ :=
    householder_loop_sim sqrt h pm m hm hpm (householder_steps m)
  simp only [householder_divs, heap.load, hm, Option.some_bind, hl, hlv, Option.map_some', hdiv]

/-- On a live input, no division by zero in storage means none on the values. -/
theorem hh_nonzero_of_NoZeroNorm {K : Type} [LinearOrderedField K] (sqrt : K → K)
    (h : heap K) (pm : Nat) (m : mat K) (hm : h.cells pm = some m) (hpm : pm < h.next)
    (hz : NoZeroNorm sqrt h pm) : hh_nonzero sqrt m := by
  obtain ⟨ds, hds, hne⟩ := hz
  rw [householder_divs_eq sqrt h pm m hm hpm] at hds
  obtain ⟨st, hst, -⟩ := hh_loop_shape sqrt m (householder_steps m)
  rw [hst, Option.map_some', Option.some.injEq] at hds
  subst hds
  exact ⟨st, hst, hne⟩

/-- The converse: no division by zero on the values means none in storage. -/
theorem NoZeroNorm_of_hh_nonzero {K : Type} [LinearOrderedField K] (sqrt : K → K)
    (h : heap K) (pm : Nat) (m : mat K) (hm : h.cells pm = some m) (hpm : pm < h.next)
    (hz : hh_nonzero sqrt m) : NoZeroNorm sqrt h pm := by
  obtain ⟨st, hst, hne⟩ := hz
  refine ⟨st.divs, ?_, hne⟩
  rw [householder_divs_eq sqrt h pm m hm hpm, hst, Option.map_some']

/-- When the loop condition allows at most one iteration, `householder` fails:
with none, `*Q = q[0]` reads a slot that was never assigned; with one,
`matrix_delete(q[0])` releases the matrix `*Q` still points to, and
`matrix_mul(*Q, m)` reads it. -/
theorem householder_none_of_steps_le_one {K : Type} [LinearOrderedField K] (sqrt : K → K)
    (h : heap K) (pm : Nat) (m : mat K) (hm : h.cells pm = some m) (hpm : pm < h.next)
    (hs : householder_steps m ≤ 1) : householder sqrt h pm = none := by
  obtain ⟨st, stv, hl, hlv, -, hnext, hcm, hz, hcz, hq, hnone⟩ :=
    householder_loop_sim sqrt h pm m hm hpm (householder_steps m)
  obtain ⟨h1, hd1, hn1, hz1, hf1⟩ := matrix_delete_spec st.h st.z stv.z hcz
  unfold householder
  simp only [heap.load, hm, Option.some_bind, hl, hd1]
  by_cases h0 : householder_steps m = 0
  · simp only [hnone 0 (by omega), Option.none_bind]
  · have hs1 : householder_steps m = 1 := by omega
    rw [hs1] at hq hz hnext
    obtain ⟨hq0, hc0⟩ := hq 0 (by omega)
    obtain ⟨stv0, hlv0, hzm, hzn, hqv, -, -⟩ := hh_loop_shape sqrt m (householder_steps m)
    rw [hlv, Option.some.injEq] at hlv0
    subst hlv0
    obtain ⟨q0v, hq0v, hq0m, hq0n⟩ := hqv 0 (by omega)
    simp only [Nat.mul_zero, Nat.add_zero] at hq0 hc0
    simp only [Nat.succ_ne_zero, if_false, Nat.mul_one, one_ne_zero] at hz
    have hq0z : h.next + 1 ≠ st.z := by omega
    have hpz : pm ≠ st.z := by omega
    obtain ⟨h2, hm2, hn2, hR2, hf2⟩ := heap_mul_spec h1 (h.next + 1) pm q0v m _
      (by rw [hf1 _ hq0z, hc0, hq0v]) (by rw [hf1 _ hpz, hcm]) (matrix_mul_eq q0v m hq0n)
    have hlive : h2.cells (h.next + 1) = some q0v := by
      rw [hf2 _ (by omega), hf1 _ hq0z, hc0, hq0v]
    obtain ⟨h4, hd4, hn4, hz4, hf4⟩ := matrix_delete_spec h2 (h.next + 1) q0v hlive
    simp only [hq0, Option.some_bind, hm2, hs1, Nat.sub_self, householder_acc, Option.map_some',
      hd4, heap_mul_freed h4 (h.next + 1) pm hz4, Option.none_bind]

/-- When the loop condition allows two iterations or more, `householder`
succeeds: `*R` and `*Q` point to live matrices, the ones `hh_result` computes,
and the input is still live and unchanged. -/
theorem householder_some_of_two_le_steps {K : Type} [LinearOrderedField K] (sqrt : K → K)
    (h : heap K) (pm : Nat) (m : mat K) (hm : h.cells pm = some m) (hpm : pm < h.next)
    (hs : 2 ≤ householder_steps m) :
    ∃ r rv, householder sqrt h pm = some r ∧ hh_result sqrt m = some rv ∧
      r.h.cells r.R = some rv.R ∧ r.h.cells r.Q = some rv.Q ∧ r.h.cells pm = some m := by
  obtain ⟨st, stv, hl, hlv, -, hnext, hcm, hz, hcz, hq, -⟩ :=
    householder_loop_sim sqrt h pm m hm hpm (householder_steps m)
  obtain ⟨stv0, hlv0, hzm, hzn, hqv, -, -⟩ := hh_loop_shape sqrt m (householder_steps m)
  rw [hlv, Option.some.injEq] at hlv0
  subst hlv0
  have hr0 : householder_steps m ≠ 0 := by omega
  rw [if_neg hr0] at hz
  -- matrix_delete(z)
  obtain ⟨h1, hd1, hn1, -, hf1⟩ := matrix_delete_spec st.h st.z stv.z hcz
  -- *Q = q[0]; *R = matrix_mul(q[0], m)
  obtain ⟨hq0, hc0⟩ := hq 0 (by omega)
  obtain ⟨q0v, hq0v, hq0m, hq0n⟩ := hqv 0 (by omega)
  simp only [Nat.mul_zero, Nat.add_zero] at hq0 hc0
  have hpz : pm ≠ st.z := by omega
  obtain ⟨h2, hm2, hn2, hR2, hf2⟩ := heap_mul_spec h1 (h.next + 1) pm q0v m _
    (by rw [hf1 _ (by omega), hc0, hq0v]) (by rw [hf1 _ hpz, hcm]) (matrix_mul_eq q0v m hq0n)
  -- the second loop
  obtain ⟨h3, Q, Qv, hacc, haccv, hQm, hQn, hn3, hQ, hcQ, hf3⟩ :=
    householder_acc_sim m.m st.q stv.q h2 (householder_steps m) (fun j => h.next + 3 * j + 1)
      (fun j hj => by
        obtain ⟨hqj, hcj⟩ := hq j hj
        obtain ⟨v, hv, hvm, hvn⟩ := hqv j hj
        refine ⟨hqj, v, hv, hvm, hvn, ?_⟩
        show h2.cells (h.next + 3 * j + 1) = some v
        rw [hf2 _ (by omega), hf1 _ (by omega), hcj, hv])
      (fun j hj => by
        show h.next + 3 * j + 1 < h2.next
        omega)
      (fun i j _ _ hij => by
        have hij' : h.next + 3 * i + 1 = h.next + 3 * j + 1 := hij
        omega)
      (householder_steps m - 1) (by omega)
  have hJ0 : householder_steps m - 1 ≠ 0 := by omega
  rw [if_neg hJ0] at hQ
  -- matrix_delete(q[0])
  have hq0live : h3.cells (h.next + 1) = some q0v := by
    rw [hf3 _ (by omega) (fun j hj1 hj2 => by omega), hf2 _ (by omega), hf1 _ (by omega), hc0,
      hq0v]
  obtain ⟨h4, hd4, hn4, -, hf4⟩ := matrix_delete_spec h3 (h.next + 1) q0v hq0live
  -- z = matrix_mul(*Q, m)
  have hpm3 : h3.cells pm = some m := by
    rw [hf3 _ (by omega) (fun j hj1 hj2 => by omega), hf2 _ (by omega), hf1 _ hpz, hcm]
  obtain ⟨Zv, hZv⟩ : ∃ Zv, matrix_mul Qv m = some Zv := ⟨_, matrix_mul_eq Qv m hQn⟩
  obtain ⟨h5, hm5, hn5, hZ5, hf5⟩ := heap_mul_spec h4 Q pm Qv m Zv
    (by rw [hf4 _ (by omega), hcQ]) (by rw [hf4 _ (by omega), hpm3]) hZv
  -- matrix_delete(*R)
  have hRlive : h5.cells st.h.next = h2.cells h1.next := by
    rw [hn1, hf5 _ (by omega), hf4 _ (by omega),
      hf3 _ (by omega) (fun j hj1 hj2 => by omega)]
  rw [hR2] at hRlive
  obtain ⟨h6, hd6, hn6, -, hf6⟩ := matrix_delete_spec h5 st.h.next _ hRlive
  -- matrix_transpose(*Q)
  obtain ⟨h7, ht7, hn7, hQ7, hf7⟩ := heap_transpose_spec h6 Q Qv
    (by rw [hf6 _ (by omega), hf5 _ (by omega), hf4 _ (by omega), hcQ])
  refine ⟨{ h := h7, R := h4.next, Q := Q }, { R := Zv, Q := matrix_transpose Qv },
    ?_, ?_, ?_, hQ7, ?_⟩
  · unfold householder
    simp only [heap.load, hm, Option.some_bind, hl, hd1, hq0, hm2, hacc, hd4, hm5, hn1, hd6,
      ht7, Option.map_some']
  · unfold hh_result
    simp only [hlv, Option.some_bind, hq0v, matrix_mul_eq q0v m hq0n, haccv, hZv]
  · simp only
    rw [hf7 _ (by omega), hf6 _ (by omega), hZ5]
  · simp only
    rw [hf7 _ (by omega), hf6 _ (by omega), hf5 _ (by omega), hf4 _ (by omega), hpm3]

/-! ## What `householder` leaves in storage -/

/-- Two iterations or more need three rows and two columns at least. -/
theorem two_le_steps_dims {K : Type} (m : mat K) (hs : 2 ≤ householder_steps m) :
    2 ≤ m.m ∧ 1 ≤ m.n := by
  unfold householder_steps at hs
  omega

/-- Reconstruction in storage: in exact real arithmetic, when the loops run
twice or more and no step divides by a zero norm, the matrices `*Q` and `*R`
point to after `householder` multiply to the input, entry by entry. -/
theorem householder_reconstruction (h : heap ℝ) (pm : Nat) (A : mat ℝ)
    (hA : h.cells pm = some A) (hpm : pm < h.next) (hs : 2 ≤ householder_steps A)
    (hz : NoZeroNorm Real.sqrt h pm) :
    ∃ r Q R P, householder Real.sqrt h pm = some r ∧ r.h.cells r.Q = some Q ∧
      r.h.cells r.R = some R ∧ matrix_mul Q R = some P ∧ P.m = A.m ∧ P.n = A.n ∧
      ∀ i j, i < A.m → j < A.n → P.v i j = A.v i j := by
  obtain ⟨r, rv, hr, hrv, hR, hQ, -⟩ :=
    householder_some_of_two_le_steps Real.sqrt h pm A hA hpm hs
  obtain ⟨hM, hN⟩ := two_le_steps_dims A hs
  obtain ⟨rv', P, hrv', hP, hPm, hPn, hPv⟩ :=
    hh_reconstruction A hM hN (hh_nonzero_of_NoZeroNorm Real.sqrt h pm A hA hpm hz)
  rw [hrv, Option.some.injEq] at hrv'
  subst hrv'
  exact ⟨r, rv.Q, rv.R, P, hr, hQ, hR, hP, hPm, hPn, hPv⟩

/-- Orthogonality in storage: in exact real arithmetic, when the loops run twice
or more and no step divides by a zero norm, the matrix `*Q` points to after
`householder` satisfies `Qᵗ · Q = I`. -/
theorem householder_orthogonal (h : heap ℝ) (pm : Nat) (A : mat ℝ)
    (hA : h.cells pm = some A) (hpm : pm < h.next) (hs : 2 ≤ householder_steps A)
    (hz : NoZeroNorm Real.sqrt h pm) :
    ∃ r Q P, householder Real.sqrt h pm = some r ∧ r.h.cells r.Q = some Q ∧
      matrix_mul (matrix_transpose Q) Q = some P ∧ P.m = A.m ∧ P.n = A.m ∧
      ∀ i j, i < A.m → j < A.m → P.v i j = if i = j then 1 else 0 := by
  obtain ⟨r, rv, hr, hrv, -, hQ, -⟩ :=
    householder_some_of_two_le_steps Real.sqrt h pm A hA hpm hs
  obtain ⟨hM, hN⟩ := two_le_steps_dims A hs
  obtain ⟨rv', P, hrv', hP, hPm, hPn, hPv⟩ :=
    hh_orthogonal A hM hN (hh_nonzero_of_NoZeroNorm Real.sqrt h pm A hA hpm hz)
  rw [hrv, Option.some.injEq] at hrv'
  subst hrv'
  exact ⟨r, rv.Q, P, hr, hQ, hP, hPm, hPn, hPv⟩

/-- Upper-triangularity in storage: in exact real arithmetic, when the loops run
twice or more and no step divides by a zero norm, the matrix `*R` points to
after `householder` vanishes below the diagonal. -/
theorem householder_upper_triangular (h : heap ℝ) (pm : Nat) (A : mat ℝ)
    (hA : h.cells pm = some A) (hpm : pm < h.next) (hs : 2 ≤ householder_steps A)
    (hz : NoZeroNorm Real.sqrt h pm) :
    ∃ r R, householder Real.sqrt h pm = some r ∧ r.h.cells r.R = some R ∧
      ∀ i j, i < A.m → j < A.n → j < i → R.v i j = 0 := by
  obtain ⟨r, rv, hr, hrv, hR, -, -⟩ :=
    householder_some_of_two_le_steps Real.sqrt h pm A hA hpm hs
  obtain ⟨hM, hN⟩ := two_le_steps_dims A hs
  obtain ⟨rv', hrv', hT⟩ :=
    hh_upper_triangular A hM hN (hh_nonzero_of_NoZeroNorm Real.sqrt h pm A hA hpm hz)
  rw [hrv, Option.some.injEq] at hrv'
  subst hrv'
  exact ⟨r, rv.R, hr, hR, hT⟩

/-- Shapes in storage: when the loops run twice or more, `householder` leaves
`*Q` pointing to an `M × M` matrix and `*R` to an `M × N` matrix. -/
theorem householder_shape {K : Type} [LinearOrderedField K] (sqrt : K → K) (h : heap K)
    (pm : Nat) (A : mat K) (hA : h.cells pm = some A) (hpm : pm < h.next)
    (hs : 2 ≤ householder_steps A) :
    ∃ r Q R, householder sqrt h pm = some r ∧ r.h.cells r.Q = some Q ∧
      r.h.cells r.R = some R ∧ Q.m = A.m ∧ Q.n = A.m ∧ R.m = A.m ∧ R.n = A.n := by
  obtain ⟨r, rv, hr, hrv, hR, hQ, -⟩ :=
    householder_some_of_two_le_steps sqrt h pm A hA hpm hs
  obtain ⟨hM, hN⟩ := two_le_steps_dims A hs
  obtain ⟨rv', hrv', h1, h2, h3, h4⟩ := hh_shape sqrt A hM hN
  rw [hrv, Option.some.injEq] at hrv'
  subst hrv'
  exact ⟨r, rv.Q, rv.R, hr, hQ, hR, h1, h2, h3, h4⟩

/-- The run on the 3 × 2 example in storage divides by no zero norm. -/
theorem exR32_NoZeroNorm : NoZeroNorm Real.sqrt (heap_of exR32) 0 :=
  NoZeroNorm_of_hh_nonzero Real.sqrt (heap_of exR32) 0 exR32 rfl (by decide) exR32_nonzero

/-- The reconstruction theorem applies to the 3 × 2 example. -/
theorem householder_reconstruction_witness :
    ∃ r Q R P, householder Real.sqrt (heap_of exR32) 0 = some r ∧ r.h.cells r.Q = some Q ∧
      r.h.cells r.R = some R ∧ matrix_mul Q R = some P ∧ P.m = exR32.m ∧ P.n = exR32.n ∧
      ∀ i j, i < exR32.m → j < exR32.n → P.v i j = exR32.v i j :=
  householder_reconstruction (heap_of exR32) 0 exR32 rfl (by decide) (by decide)
    exR32_NoZeroNorm

/-- The orthogonality theorem applies to the 3 × 2 example. -/
theorem householder_orthogonal_witness :
    ∃ r Q P, householder Real.sqrt (heap_of exR32) 0 = some r ∧ r.h.cells r.Q = some Q ∧
      matrix_mul (matrix_transpose Q) Q = some P ∧ P.m = exR32.m ∧ P.n = exR32.m ∧
      ∀ i j, i < exR32.m → j < exR32.m → P.v i j = if i = j then 1 else 0 :=
  householder_orthogonal (heap_of exR32) 0 exR32 rfl (by decide) (by decide) exR32_NoZeroNorm

/-- The triangularity theorem applies to the 3 × 2 example. -/
theorem householder_upper_triangular_witness :
    ∃ r R, householder Real.sqrt (heap_of exR32) 0 = some r ∧ r.h.cells r.R = some R ∧
      ∀ i j, i < exR32.m → j < exR32.n → j < i → R.v i j = 0 :=
  householder_upper_triangular (heap_of exR32) 0 exR32 rfl (by decide) (by decide)
    exR32_NoZeroNorm

/-- The shape theorem applies to a 3 × 2 matrix of rationals. -/
theorem householder_shape_witness :
    ∃ r Q R, householder Rat.sqrt (heap_of ex32) 0 = some r ∧ r.h.cells r.Q = some Q ∧
      r.h.cells r.R = some R ∧ Q.m = ex32.m ∧ Q.n = ex32.m ∧ R.m = ex32.m ∧ R.n = ex32.n :=
  householder_shape Rat.sqrt (heap_of ex32) 0 ex32 rfl (by decide) (by decide)
/-! ## Further facts about the steps of a run -/

/-- Two squares of a vector are at most the sum of all of them. -/
theorem sumsq_pair_le {K : Type} [LinearOrderedField K] (f : Nat → K) (n k i : Nat)
    (hk : k < n) (hi : i < n) (hki : k ≠ i) : f k * f k + f i * f i ≤ sumsq f n := by
  rw [sumsq_eq_sum]
  have hne : (⟨k, hk⟩ : Fin n) ≠ ⟨i, hi⟩ := fun h => hki (congrArg Fin.val h)
  have h1 := Finset.sum_le_sum_of_subset_of_nonneg
    (f := fun l : Fin n => f l.val * f l.val)
    (Finset.subset_univ ({⟨k, hk⟩, ⟨i, hi⟩} : Finset (Fin n)))
    (fun l _ _ => mul_self_nonneg _)
  rw [Finset.sum_pair hne] at h1
  exact h1

/-- One reflection on the rows up to the pivot: the pivot entry of the reflected
matrix is `-a`, and the rows above the pivot are unchanged. -/
theorem hh_step_diag {K : Type} [LinearOrderedField K] (sqrt : K → K)
    (hsq : ∀ s, 0 ≤ s → sqrt s * sqrt s = s) (m z : mat K) (k : Nat)
    (hk : k < m.m) (hkn : k < m.n) (hzm : z.m = m.m) (hzn : z.n = m.n)
    (hd0 : hh_d sqrt m z k ≠ 0) (B : Matrix (Fin m.m) (Fin m.n) K)
    (I1 : ∀ (i : Fin m.m) (j : Fin m.n), k ≤ i.val → k ≤ j.val → z.v i.val j.val = B i j) :
    (reflM (fun i : Fin m.m => hh_e sqrt m z k i.val) * B) ⟨k, hk⟩ ⟨k, hkn⟩
        = -hh_a sqrt m z k ∧
      (∀ (i : Fin m.m) (j : Fin m.n), i.val < k →
        (reflM (fun i : Fin m.m => hh_e sqrt m z k i.val) * B) i j = B i j) := by
  obtain ⟨-, hcol⟩ := reflect_column (fun i : Fin m.m => hh_x z k i.val)
    (fun i : Fin m.m => hh_e sqrt m z k i.val) (fun i : Fin m.m => hh_v sqrt m z k i.val)
    (hh_a sqrt m z k) (hh_d sqrt m z k) ⟨k, hk⟩
    (by rw [hh_a_mul_self sqrt hsq, sumsq_eq_sum])
    (fun i => by simp only [hh_v, Fin.ext_iff])
    (by rw [← sumsq_eq_sum]; exact hsq _ (sumsq_nonneg _ _))
    hd0 (fun i => rfl)
  constructor
  · rw [reflM_mul_apply]
    have h2 : ∑ l : Fin m.m, hh_e sqrt m z k l.val * B l ⟨k, hkn⟩
        = ∑ l : Fin m.m, hh_e sqrt m z k l.val * hh_x z k l.val := by
      refine Finset.sum_congr rfl (fun l _ => ?_)
      by_cases hl : l.val < k
      · rw [hh_e_below sqrt m z k l hl, zero_mul, zero_mul]
      · rw [hh_x_from z k l (by omega) (by rw [hzm]; exact l.isLt) (by rw [hzn]; exact hkn),
          ← I1 l ⟨k, hkn⟩ (by omega) (Nat.le_refl k)]
    have h3 : B ⟨k, hk⟩ ⟨k, hkn⟩ = hh_x z k k := by
      rw [hh_x_from z k k (Nat.le_refl k) (by rw [hzm]; exact hk) (by rw [hzn]; exact hkn),
        ← I1 ⟨k, hk⟩ ⟨k, hkn⟩ (Nat.le_refl k) (Nat.le_refl k)]
    rw [h2, h3]
    have := hcol ⟨k, hk⟩
    simp only [if_true, mul_one] at this
    exact this
  · intro i j hi
    rw [reflM_mul_apply, hh_e_below sqrt m z k i hi, mul_zero, zero_mul, sub_zero]

/-- The diagonal along the first loop, when no step divides by zero and the square
root is exact: after `k` iterations the entry `(j, j)` of the product of the
reflectors with `m` is `-a_j` for every `j < k`, and the rows `< j` of the
product after `j` iterations stay as they are. -/
theorem hh_loop_diag {K : Type} [LinearOrderedField K] (sqrt : K → K)
    (hsq : ∀ s, 0 ≤ s → sqrt s * sqrt s = s) (m : mat K) (k : Nat)
    (hk : k ≤ householder_steps m) (st : hh_state K)
    (hst : hh_loop sqrt m k = some st) (hdiv : ∀ d ∈ st.divs, d ≠ 0) :
    ∀ (i : Fin m.m) (j : Fin m.n), i.val = j.val → j.val < k →
      ∀ stj, hh_loop sqrt m j.val = some stj →
        (prodQ m.m st.q k * toM m.m m.n m) i j = -hh_a sqrt m stj.z j.val := by
  induction k generalizing st with
  | zero =>
    intro i j _ hj
    omega
  | succ k ih =>
    obtain ⟨st0, hl, hzm, hzn, hq, -, -⟩ := hh_loop_shape sqrt m k
    have hb := hh_body_some sqrt m st0 k hzm
    have hl' : hh_loop sqrt m (k + 1) = hh_body sqrt m st0 k := by
      simp only [hh_loop, hl, Option.some_bind]
    rw [hl', hb, Option.some.injEq] at hst
    subst hst
    simp only [List.mem_append, List.mem_singleton] at hdiv
    have hd0 : hh_d sqrt m st0.z k ≠ 0 := hdiv _ (Or.inr rfl)
    have hdiv0 : ∀ d ∈ st0.divs, d ≠ 0 := fun d hd => hdiv d (Or.inl hd)
    obtain ⟨-, -, I1, -⟩ := hh_loop_inv sqrt hsq m k (by omega) st0 hl hdiv0
    have hks : k < householder_steps m := hk
    unfold householder_steps at hks
    have hkm : k < m.m := by omega
    have hkn : k < m.n := by omega
    obtain ⟨D1, D2⟩ := hh_step_diag sqrt hsq m st0.z k hkm hkn hzm hzn hd0
      (prodQ m.m st0.q k * toM m.m m.n m) I1
    have hP : prodQ m.m (Function.update st0.q k (some (reflector m.m (hh_e sqrt m st0.z k))))
          (k + 1)
        = reflM (fun i : Fin m.m => hh_e sqrt m st0.z k i.val) * prodQ m.m st0.q k := by
      rw [prodQ_succ m.m _ k (reflector m.m (hh_e sqrt m st0.z k)) (by simp), toM_reflector,
        prodQ_congr m.m _ st0.q k (fun j hj => by
          have : j ≠ k := by omega
          simp [Function.update_noteq this])]
    intro i j hij hj stj hstj
    simp only [hP]
    rw [Matrix.mul_assoc]
    by_cases hjk : j.val < k
    · rw [D2 i j (by omega)]
      exact ih (by omega) st0 hl hdiv0 i j hij hjk stj hstj
    · have hjk' : j.val = k := by omega
      have hi : i = ⟨k, hkm⟩ := Fin.ext (by simp only; omega)
      have hj' : j = ⟨k, hkn⟩ := Fin.ext hjk'
      rw [hjk', hl, Option.some.injEq] at hstj
      subst hstj
      rw [hi, hj', D1]

/-- The diagonal of `R` on the values, for an exact square root and a run that
never divides by zero: `R[k][k]` is `-a_k`, the scalar of step `k`. -/
theorem hh_diagonal {K : Type} [LinearOrderedField K] (sqrt : K → K)
    (hsq : ∀ s, 0 ≤ s → sqrt s * sqrt s = s) (m : mat K) (hM : 2 ≤ m.m) (hN : 1 ≤ m.n)
    (hz : hh_nonzero sqrt m) :
    ∃ r, hh_result sqrt m = some r ∧
      ∀ k, k < householder_steps m → ∃ stk, hh_loop sqrt m k = some stk ∧
        r.R.v k k = -hh_a sqrt m stk.z k := by
  obtain ⟨st, P, hst, hP, hPm, hPn, hres⟩ := hh_result_eq sqrt m hM hN
  obtain ⟨st1, hst1, -, -, hq, -, -⟩ := hh_loop_shape sqrt m (householder_steps m)
  rw [hst, Option.some.injEq] at hst1
  subst hst1
  have hpos := householder_steps_pos m hM hN
  obtain ⟨P1, hP1, -, -, hPM⟩ := hh_acc_prod m.m st.q (householder_steps m - 1)
    (fun j hj => hq j (by omega))
  rw [hP, Option.some.injEq] at hP1
  subst hP1
  rw [Nat.sub_add_cancel hpos] at hPM
  obtain ⟨st2, hst2, hne⟩ := hz
  rw [hst, Option.some.injEq] at hst2
  subst hst2
  have hD := hh_loop_diag sqrt hsq m (householder_steps m) (Nat.le_refl _) st hst hne
  refine ⟨_, hres, ?_⟩
  intro k hk
  obtain ⟨stk, hstk, -⟩ := hh_loop_shape sqrt m k
  refine ⟨stk, hstk, ?_⟩
  have hks := hk
  unfold householder_steps at hks
  have hkm : k < m.m := by omega
  have hkn : k < m.n := by omega
  have h := hD ⟨k, hkm⟩ ⟨k, hkn⟩ rfl hk stk hstk
  rw [← h, ← hPM]
  have h2 := (toM_matrix_mul m.m m.m m.n P m _ hPm hPn rfl rfl (matrix_mul_eq P m hPn)).2.2
  simp only [hPm, hPn] at h2
  rw [← h2]
  rfl

/-- The statements of `householder` one by one when the loop condition allows
exactly one iteration: the first loop builds `q[0]`, `matrix_delete(z)` and
`*R = matrix_mul(q[0], m)` succeed, the second loop does not run and leaves
`*Q = q[0]`, `matrix_delete(q[0])` releases that matrix, and the call
`matrix_mul(*Q, m)` has a released left operand. -/
theorem householder_trace_one_step {K : Type} [LinearOrderedField K] (sqrt : K → K)
    (h : heap K) (pm : Nat) (m : mat K) (hm : h.cells pm = some m) (hpm : pm < h.next)
    (hs : householder_steps m = 1) :
    ∃ st h1 q0 Q0 h2 R h4,
      householder_loop sqrt pm h 1 = some st ∧ st.q 0 = some q0 ∧
      st.h.cells q0 = some Q0 ∧ Q0.m = m.m ∧ Q0.n = m.m ∧
      matrix_delete st.h st.z = some h1 ∧ h1.mul q0 pm = some (h2, R) ∧
      householder_acc st.q h2 (householder_steps m - 1) = some (h2, q0) ∧
      matrix_delete h2 q0 = some h4 ∧ h4.cells q0 = none ∧ h4.mul q0 pm = none := by
  obtain ⟨st, stv, hl, hlv, -, hnext, hcm, hz, hcz, hq, hnone⟩ :=
    householder_loop_sim sqrt h pm m hm hpm 1
  obtain ⟨h1, hd1, hn1, hz1, hf1⟩ := matrix_delete_spec st.h st.z stv.z hcz
  obtain ⟨hq0, hc0⟩ := hq 0 (by omega)
  obtain ⟨stv0, hlv0, hzm, hzn, hqv, -, -⟩ := hh_loop_shape sqrt m 1
  rw [hlv, Option.some.injEq] at hlv0
  subst hlv0
  obtain ⟨q0v, hq0v, hq0m, hq0n⟩ := hqv 0 (by omega)
  simp only [Nat.mul_zero, Nat.add_zero] at hq0 hc0
  simp only [Nat.succ_ne_zero, if_false, Nat.mul_one, one_ne_zero] at hz
  have hq0z : h.next + 1 ≠ st.z := by omega
  have hpz : pm ≠ st.z := by omega
  obtain ⟨h2, hm2, hn2, hR2, hf2⟩ := heap_mul_spec h1 (h.next + 1) pm q0v m _
    (by rw [hf1 _ hq0z, hc0, hq0v]) (by rw [hf1 _ hpz, hcm]) (matrix_mul_eq q0v m hq0n)
  have hlive : h2.cells (h.next + 1) = some q0v := by
    rw [hf2 _ (by omega), hf1 _ hq0z, hc0, hq0v]
  obtain ⟨h4, hd4, hn4, hz4, hf4⟩ := matrix_delete_spec h2 (h.next + 1) q0v hlive
  refine ⟨st, h1, h.next + 1, q0v, h2, h1.next, h4, hl, hq0, by rw [hc0, hq0v], hq0m, hq0n,
    hd1, hm2, ?_, hd4, hz4, heap_mul_freed h4 (h.next + 1) pm hz4⟩
  simp only [hs, Nat.sub_self, householder_acc, hq0, Option.map_some']

/-- The product `householder` returns, in storage, when the loops run twice or
more: the first loop assigns exactly the slots `q[0] .. q[r-1]`, each an
`M × M` matrix, the second loop accumulates `P = q[r-1] · … · q[1] · q[0]` by
`*Q = q[i] · *Q` from `*Q = q[0]`, and the run leaves `*R = P · A` and
`*Q = Pᵗ`. -/
theorem householder_product {K : Type} [LinearOrderedField K] (sqrt : K → K) (h : heap K)
    (pm : Nat) (A : mat K) (hA : h.cells pm = some A) (hpm : pm < h.next)
    (hs : 2 ≤ householder_steps A) :
    ∃ r stv P Rv, householder sqrt h pm = some r ∧
      hh_loop sqrt A (householder_steps A) = some stv ∧
      (∀ j, j < householder_steps A → ∃ Qj, stv.q j = some Qj ∧ Qj.m = A.m ∧ Qj.n = A.m) ∧
      (∀ j, householder_steps A ≤ j → stv.q j = none) ∧
      hh_acc stv.q (householder_steps A - 1) = some P ∧ matrix_mul P A = some Rv ∧
      r.h.cells r.R = some Rv ∧ r.h.cells r.Q = some (matrix_transpose P) := by
  obtain ⟨r, rv, hr, hrv, hR, hQ, -⟩ :=
    householder_some_of_two_le_steps sqrt h pm A hA hpm hs
  obtain ⟨hM, hN⟩ := two_le_steps_dims A hs
  obtain ⟨st, P, hst, hP, hPm, hPn, hres⟩ := hh_result_eq sqrt A hM hN
  obtain ⟨st1, hst1, -, -, hq, hnone, -⟩ := hh_loop_shape sqrt A (householder_steps A)
  rw [hst, Option.some.injEq] at hst1
  subst hst1
  rw [hrv, Option.some.injEq] at hres
  subst hres
  have hmul := matrix_mul_eq P A hPn
  simp only [hPm, hPn] at hmul
  exact ⟨r, st, P, _, hr, hst, hq, hnone, hP, hmul, hR, hQ⟩

/-- The product theorem applies to a 3 × 2 matrix of rationals. -/
theorem householder_product_witness :
    ∃ r stv P Rv, householder Rat.sqrt (heap_of ex32) 0 = some r ∧
      hh_loop Rat.sqrt ex32 (householder_steps ex32) = some stv ∧
      (∀ j, j < householder_steps ex32 →
        ∃ Qj, stv.q j = some Qj ∧ Qj.m = ex32.m ∧ Qj.n = ex32.m) ∧
      (∀ j, householder_steps ex32 ≤ j → stv.q j = none) ∧
      hh_acc stv.q (householder_steps ex32 - 1) = some P ∧ matrix_mul P ex32 = some Rv ∧
      r.h.cells r.R = some Rv ∧ r.h.cells r.Q = some (matrix_transpose P) :=
  householder_product Rat.sqrt (heap_of ex32) 0 ex32 rfl (by decide) (by decide)

/-- The indices `householder` passes, when the loops run twice or more: every
index `k` of the first loop is at most `min(M, N)` and smaller than `M` and `N`,
and the run completes, so every `matrix_mul` it calls has returned a matrix. -/
theorem householder_calls_in_range {K : Type} [LinearOrderedField K] (sqrt : K → K)
    (h : heap K) (pm : Nat) (A : mat K) (hA : h.cells pm = some A) (hpm : pm < h.next)
    (hs : 2 ≤ householder_steps A) :
    (∀ k, k < householder_steps A → k ≤ min A.m A.n ∧ k < A.m ∧ k < A.n) ∧
      ∃ r, householder sqrt h pm = some r := by
  obtain ⟨r, rv, hr, -⟩ := householder_some_of_two_le_steps sqrt h pm A hA hpm hs
  refine ⟨?_, r, hr⟩
  intro k hk
  unfold householder_steps at hk
  omega

/-- The index theorem applies to a 3 × 2 matrix of rationals. -/
theorem householder_calls_in_range_witness :
    (∀ k, k < householder_steps ex32 → k ≤ min ex32.m ex32.n ∧ k < ex32.m ∧ k < ex32.n) ∧
      ∃ r, householder Rat.sqrt (heap_of ex32) 0 = some r :=
  householder_calls_in_range Rat.sqrt (heap_of ex32) 0 ex32 rfl (by decide) (by decide)

/-- The diagonal of `R` in storage, exact real arithmetic, no division by zero,
loops running twice or more: `R[k][k]` is `+‖x_k‖` when the original `A[k][k]`
is positive and `-‖x_k‖` otherwise, `x_k` being column `k` of the `k`-th minor of
the working matrix of step `k`; and `R[0][0]` is `±‖column 0 of A‖`. -/
theorem householder_diagonal (h : heap ℝ) (pm : Nat) (A : mat ℝ)
    (hA : h.cells pm = some A) (hpm : pm < h.next) (hs : 2 ≤ householder_steps A)
    (hz : NoZeroNorm Real.sqrt h pm) :
    ∃ r R, householder Real.sqrt h pm = some r ∧ r.h.cells r.R = some R ∧
      (∀ k, k < householder_steps A → ∃ stk, hh_loop Real.sqrt A k = some stk ∧
        R.v k k = if A.v k k > 0 then Real.sqrt (sumsq (hh_x stk.z k) A.m)
          else -Real.sqrt (sumsq (hh_x stk.z k) A.m)) ∧
      R.v 0 0 = if A.v 0 0 > 0 then Real.sqrt (sumsq (fun i => A.v i 0) A.m)
        else -Real.sqrt (sumsq (fun i => A.v i 0) A.m) := by
  obtain ⟨r, rv, hr, hrv, hR, -, -⟩ :=
    householder_some_of_two_le_steps Real.sqrt h pm A hA hpm hs
  obtain ⟨hM, hN⟩ := two_le_steps_dims A hs
  obtain ⟨rv', hrv', hD⟩ := hh_diagonal Real.sqrt (fun s hs => Real.mul_self_sqrt hs) A hM hN
    (hh_nonzero_of_NoZeroNorm Real.sqrt h pm A hA hpm hz)
  rw [hrv, Option.some.injEq] at hrv'
  subst hrv'
  have hall : ∀ k, k < householder_steps A → ∃ stk, hh_loop Real.sqrt A k = some stk ∧
      rv.R.v k k = if A.v k k > 0 then Real.sqrt (sumsq (hh_x stk.z k) A.m)
        else -Real.sqrt (sumsq (hh_x stk.z k) A.m) := by
    intro k hk
    obtain ⟨stk, hstk, hkk⟩ := hD k hk
    refine ⟨stk, hstk, ?_⟩
    rw [hkk]
    unfold hh_a
    split_ifs
    · exact neg_neg _
    · rfl
  refine ⟨r, rv.R, hr, hR, hall, ?_⟩
  obtain ⟨st0, hst0, h00⟩ := hall 0 (by omega)
  have hz0 : st0.z = A := by
    have : hh_loop Real.sqrt A 0 = some { z := A, q := fun _ => none, divs := [] } := rfl
    rw [this, Option.some.injEq] at hst0
    rw [← hst0]
  rw [hz0] at h00
  have hc : sumsq (hh_x A 0) A.m = sumsq (fun i => A.v i 0) A.m :=
    sumsq_congr _ _ A.m (fun i hi => hh_x_from A 0 i (Nat.zero_le i) hi (by omega))
  rw [hc] at h00
  exact h00

/-- The diagonal theorem applies to the real 3 × 2 example. -/
theorem householder_diagonal_witness :
    ∃ r R, householder Real.sqrt (heap_of exR32) 0 = some r ∧ r.h.cells r.R = some R ∧
      (∀ k, k < householder_steps exR32 → ∃ stk, hh_loop Real.sqrt exR32 k = some stk ∧
        R.v k k = if exR32.v k k > 0 then Real.sqrt (sumsq (hh_x stk.z k) exR32.m)
          else -Real.sqrt (sumsq (hh_x stk.z k) exR32.m)) ∧
      R.v 0 0 = if exR32.v 0 0 > 0 then Real.sqrt (sumsq (fun i => exR32.v i 0) exR32.m)
        else -Real.sqrt (sumsq (fun i => exR32.v i 0) exR32.m) :=
  householder_diagonal (heap_of exR32) 0 exR32 rfl (by decide) (by decide) exR32_NoZeroNorm

/-! ## The run on the reference input -/

/-- In exact real arithmetic a column with a non-zero entry below the pivot gives a
non-zero leading component `x[k] + a`, whichever sign `a = ±‖x‖` has. -/
theorem hh_lead_ne_zero (m z : mat ℝ) (k i : Nat) (hki : k < i) (hi : i < m.m)
    (hx : hh_x z k i ≠ 0) : hh_x z k k + hh_a Real.sqrt m z k ≠ 0 := by
  intro h0
  have ha : hh_a Real.sqrt m z k = -hh_x z k k := by linarith
  have h1 := hh_a_mul_self Real.sqrt (fun s hs => Real.mul_self_sqrt hs) m z k
  rw [ha, neg_mul_neg] at h1
  have h2 := sumsq_pair_le (hh_x z k) m.m k i (by omega) hi (by omega)
  have h3 : 0 < hh_x z k i * hh_x z k i := mul_self_pos.mpr hx
  linarith

/-- In exact real arithmetic a column with a non-zero entry below the pivot is
divided by a non-zero norm. -/
theorem hh_d_ne_zero (m z : mat ℝ) (k i : Nat) (hki : k < i) (hi : i < m.m)
    (hx : hh_x z k i ≠ 0) : hh_d Real.sqrt m z k ≠ 0 := by
  unfold hh_d
  refine Real.sqrt_ne_zero'.mpr (sumsq_pos _ m.m i hi ?_)
  have hne : i ≠ k := by omega
  simp only [hh_v, hne, if_false, mul_zero, add_zero]
  exact hx

/-- One more iteration of the first loop on the values. -/
theorem hh_loop_succ {K : Type} [LinearOrderedField K] (sqrt : K → K) (m : mat K) (k : Nat)
    (st : hh_state K) (hst : hh_loop sqrt m k = some st) (hzm : st.z.m = m.m) :
    hh_loop sqrt m (k + 1) = some
      { z := hh_next sqrt m st.z k,
        q := Function.update st.q k (some (reflector m.m (hh_e sqrt m st.z k))),
        divs := st.divs ++ [hh_d sqrt m st.z k] } := by
  simp only [hh_loop, hst, Option.some_bind]
  exact hh_body_some sqrt m st k hzm

/-- Below the pivot row and from the pivot column on, a step subtracts from each
row of the working matrix a multiple of its pivot-column entry. -/
theorem hh_next_entry {K : Type} [LinearOrderedField K] (sqrt : K → K) (m z : mat K)
    (k i j : Nat) (hki : k < i) (hi : i < m.m) (hkj : k ≤ j) (hj : j < z.n)
    (hzm : z.m = m.m) :
    (hh_next sqrt m z k).v i j = z.v i j - z.v i k *
      (2 * (∑ l in Finset.range m.m, hh_v sqrt m z k l * (matrix_minor z k).v l j)
        / (hh_d sqrt m z k * hh_d sqrt m z k)) := by
  have hmn : (matrix_minor z k).n = z.n := by rw [matrix_minor_eq]
  have h1 : (hh_next sqrt m z k).v i j
      = (reflM (fun l : Fin m.m => hh_e sqrt m z k l.val)
          * toM m.m z.n (matrix_minor z k)) ⟨i, hi⟩ ⟨j, hj⟩ := by
    simp only [hh_next, if_pos (And.intro hi hj), dot_upto_eq_sum, Matrix.mul_apply,
      ← toM_reflector]
    rfl
  rw [h1, reflM_mul_apply]
  have h2 : ∑ l : Fin m.m, hh_e sqrt m z k l.val * toM m.m z.n (matrix_minor z k) l ⟨j, hj⟩
      = (∑ l in Finset.range m.m, hh_v sqrt m z k l * (matrix_minor z k).v l j)
        / hh_d sqrt m z k := by
    rw [Finset.sum_div, ← Fin.sum_univ_eq_sum_range
      (fun l => hh_v sqrt m z k l * (matrix_minor z k).v l j / hh_d sqrt m z k) m.m]
    refine Finset.sum_congr rfl (fun l _ => ?_)
    simp only [hh_e, toM]
    ring
  have h3 : hh_e sqrt m z k i = z.v i k / hh_d sqrt m z k := by
    have hne : i ≠ k := by omega
    simp only [hh_e, hh_v, hne, if_false, mul_zero, add_zero]
    rw [hh_x_from z k i (by omega) (by rw [hzm]; exact hi) (by omega)]
  have h4 : toM m.m z.n (matrix_minor z k) ⟨i, hi⟩ ⟨j, hj⟩ = z.v i j := by
    simp only [toM]
    exact matrix_minor_block z k i j (by omega) (by rw [hzm]; exact hi) hkj hj
  rw [h2, h4]
  simp only [h3]
  ring

/-- The values of step 0 of the run on the reference input, with `s = √201`: the
squared norm by which the step divides is `402 - 24·s`, and the products of the
vector `x + a·e_0` with columns 1 and 2 are `293 + 51·s` and `-190 - 4·s`. -/
theorem exA_step0 :
    hh_d Real.sqrt exA exA 0 * hh_d Real.sqrt exA exA 0 = 402 - 24 * Real.sqrt 201 ∧
      hh_d Real.sqrt exA exA 0 ≠ 0 ∧
      ∑ l in Finset.range exA.m, hh_v Real.sqrt exA exA 0 l * (matrix_minor exA 0).v l 1
        = 293 + 51 * Real.sqrt 201 ∧
      ∑ l in Finset.range exA.m, hh_v Real.sqrt exA exA 0 l * (matrix_minor exA 0).v l 2
        = -190 - 4 * Real.sqrt 201 := by
  have hss : Real.sqrt 201 * Real.sqrt 201 = 201 := Real.mul_self_sqrt (by norm_num)
  have hm : exA.m = 5 := rfl
  have hx0 : hh_x exA 0 0 = 12 := by simp [hh_x, matrix_minor_eq, exA, mat_of_rows]
  have hx1 : hh_x exA 0 1 = 6 := by simp [hh_x, matrix_minor_eq, exA, mat_of_rows]
  have hx2 : hh_x exA 0 2 = -4 := by simp [hh_x, matrix_minor_eq, exA, mat_of_rows]
  have hx3 : hh_x exA 0 3 = -1 := by simp [hh_x, matrix_minor_eq, exA, mat_of_rows]
  have hx4 : hh_x exA 0 4 = 2 := by simp [hh_x, matrix_minor_eq, exA, mat_of_rows]
  have hs : sumsq (hh_x exA 0) exA.m = 201 := by
    rw [hm]
    simp only [sumsq, List.range_succ, List.range_zero, List.nil_append, List.foldl_append,
      List.foldl_cons, List.foldl_nil, hx0, hx1, hx2, hx3, hx4]
    norm_num
  have hpos : exA.v 0 0 > 0 := by simp [exA, mat_of_rows]
  have ha : hh_a Real.sqrt exA exA 0 = -Real.sqrt 201 := by
    unfold hh_a
    rw [if_pos hpos, hs]
  have hv0 : hh_v Real.sqrt exA exA 0 0 = 12 - Real.sqrt 201 := by
    simp only [hh_v, hx0, ha, if_true, mul_one]
    ring
  have hv1 : hh_v Real.sqrt exA exA 0 1 = 6 := by simp [hh_v, hx1]
  have hv2 : hh_v Real.sqrt exA exA 0 2 = -4 := by simp [hh_v, hx2]
  have hv3 : hh_v Real.sqrt exA exA 0 3 = -1 := by simp [hh_v, hx3]
  have hv4 : hh_v Real.sqrt exA exA 0 4 = 2 := by simp [hh_v, hx4]
  have hd : hh_d Real.sqrt exA exA 0 * hh_d Real.sqrt exA exA 0
      = 402 - 24 * Real.sqrt 201 := by
    unfold hh_d
    rw [Real.mul_self_sqrt (sumsq_nonneg _ _), hm]
    simp only [sumsq, List.range_succ, List.range_zero, List.nil_append, List.foldl_append,
      List.foldl_cons, List.foldl_nil, hv0, hv1, hv2, hv3, hv4]
    linear_combination hss
  refine ⟨hd, hh_d_ne_zero exA exA 0 1 (by decide) (by decide) (by rw [hx1]; norm_num), ?_, ?_⟩
  · rw [hm]
    simp only [Finset.sum_range_succ, Finset.sum_range_zero, hv0, hv1, hv2, hv3, hv4]
    simp [matrix_minor_eq, exA, mat_of_rows]
    ring
  · rw [hm]
    simp only [Finset.sum_range_succ, Finset.sum_range_zero, hv0, hv1, hv2, hv3, hv4]
    simp [matrix_minor_eq, exA, mat_of_rows]
    ring

/-- The three steps of the run on the reference input divide by non-zero norms. -/
theorem exA_nonzero : hh_nonzero Real.sqrt exA := by
  obtain ⟨hdd, hd0, hS1, hS2⟩ := exA_step0
  have hs0 : (0 : ℝ) ≤ Real.sqrt 201 := Real.sqrt_nonneg _
  have hl0 : hh_loop Real.sqrt exA 0 = some { z := exA, q := fun _ => none, divs := [] } := rfl
  have hl1 := hh_loop_succ Real.sqrt exA 0 _ hl0 rfl
  have hl2 := hh_loop_succ Real.sqrt exA 1 _ hl1 rfl
  have hl3 := hh_loop_succ Real.sqrt exA 2 _ hl2 rfl
  simp only [List.nil_append, List.cons_append] at hl3
  have hs : householder_steps exA = 3 := by decide
  refine ⟨_, by rw [hs]; exact hl3, ?_⟩
  generalize hZ1 : hh_next Real.sqrt exA exA 0 = Z1
  have hZ1m : Z1.m = 5 := by rw [← hZ1]; rfl
  have hZ1n : Z1.n = 3 := by rw [← hZ1]; rfl
  have hA30 : exA.v 3 0 = -1 := by simp [exA, mat_of_rows]
  have hA31 : exA.v 3 1 = 1 := by simp [exA, mat_of_rows]
  have hA32 : exA.v 3 2 = 0 := by simp [exA, mat_of_rows]
  have hA40 : exA.v 4 0 = 2 := by simp [exA, mat_of_rows]
  have hA41 : exA.v 4 1 = 0 := by simp [exA, mat_of_rows]
  have hA42 : exA.v 4 2 = 3 := by simp [exA, mat_of_rows]
  have hdd0 : hh_d Real.sqrt exA exA 0 * hh_d Real.sqrt exA exA 0 ≠ 0 := mul_ne_zero hd0 hd0
  have e31 := hh_next_entry Real.sqrt exA exA 0 3 1 (by decide) (by decide) (by decide)
    (by decide) rfl
  have e41 := hh_next_entry Real.sqrt exA exA 0 4 1 (by decide) (by decide) (by decide)
    (by decide) rfl
  have e32 := hh_next_entry Real.sqrt exA exA 0 3 2 (by decide) (by decide) (by decide)
    (by decide) rfl
  have e42 := hh_next_entry Real.sqrt exA exA 0 4 2 (by decide) (by decide) (by decide)
    (by decide) rfl
  rw [hZ1, hS1, hdd, hA31, hA30] at e31
  rw [hZ1, hS1, hdd, hA41, hA40] at e41
  rw [hZ1, hS2, hdd, hA32, hA30] at e32
  rw [hZ1, hS2, hdd, hA42, hA40] at e42
  rw [hdd] at hdd0
  -- step 1: the entry (4, 1) of the working matrix is not zero
  have h41 : Z1.v 4 1 ≠ 0 := by
    rw [e41]
    have : (0 : ℝ) - 2 * (2 * (293 + 51 * Real.sqrt 201) / (402 - 24 * Real.sqrt 201))
        = -(4 * (293 + 51 * Real.sqrt 201)) / (402 - 24 * Real.sqrt 201) := by ring
    rw [this]
    refine div_ne_zero ?_ hdd0
    have : (0 : ℝ) < 4 * (293 + 51 * Real.sqrt 201) := by positivity
    linarith
  have hd1 : hh_d Real.sqrt exA Z1 1 ≠ 0 := by
    refine hh_d_ne_zero exA Z1 1 4 (by decide) (by decide) ?_
    rw [hh_x_from Z1 1 4 (by decide) (by rw [hZ1m]; decide) (by rw [hZ1n]; decide)]
    exact h41
  -- step 2: the entries (3, 2) and (4, 2) of the working matrix are not both zero
  have f32 := hh_next_entry Real.sqrt exA Z1 1 3 2 (by decide) (by decide) (by decide)
    (by rw [hZ1n]; decide) hZ1m
  have f42 := hh_next_entry Real.sqrt exA Z1 1 4 2 (by decide) (by decide) (by decide)
    (by rw [hZ1n]; decide) hZ1m
  generalize hZ2 : hh_next Real.sqrt exA Z1 1 = Z2 at f32 f42
  have hZ2m : Z2.m = 5 := by rw [← hZ2]; rfl
  have hZ2n : Z2.n = 3 := by rw [← hZ2]; exact hZ1n
  generalize (2 * (∑ l in Finset.range exA.m,
      hh_v Real.sqrt exA Z1 1 l * (matrix_minor Z1 1).v l 2)
        / (hh_d Real.sqrt exA Z1 1 * hh_d Real.sqrt exA Z1 1)) = t at f32 f42
  have hboth : ¬ (Z2.v 3 2 = 0 ∧ Z2.v 4 2 = 0) := by
    rintro ⟨g3, g4⟩
    rw [f32] at g3
    rw [f42] at g4
    have hD : Z1.v 3 1 * Z1.v 4 2 - Z1.v 4 1 * Z1.v 3 2 = 0 := by
      linear_combination Z1.v 3 1 * g4 - Z1.v 4 1 * g3
    rw [e31, e41, e32, e42] at hD
    have hD' : (3724 + 250 * Real.sqrt 201) / (402 - 24 * Real.sqrt 201) = 0 := by
      rw [← hD]
      field_simp
      ring
    have : (3724 + 250 * Real.sqrt 201) ≠ 0 := by
      have : (0 : ℝ) < 3724 + 250 * Real.sqrt 201 := by positivity
      linarith
    exact (div_ne_zero this hdd0) hD'
  have hd2 : hh_d Real.sqrt exA Z2 2 ≠ 0 := by
    by_cases g3 : Z2.v 3 2 = 0
    · have g4 : Z2.v 4 2 ≠ 0 := fun g4 => hboth ⟨g3, g4⟩
      refine hh_d_ne_zero exA Z2 2 4 (by decide) (by decide) ?_
      rw [hh_x_from Z2 2 4 (by decide) (by rw [hZ2m]; decide) (by rw [hZ2n]; decide)]
      exact g4
    · refine hh_d_ne_zero exA Z2 2 3 (by decide) (by decide) ?_
      rw [hh_x_from Z2 2 3 (by decide) (by rw [hZ2m]; decide) (by rw [hZ2n]; decide)]
      exact g3
  intro d hd
  simp only [List.mem_cons, List.mem_singleton, List.not_mem_nil, or_false] at hd
  rcases hd with hd | hd | hd
  · rw [hd]; exact hd0
  · rw [hd]; exact hd1
  · rw [hd]; exact hd2

/-- No step of `householder` on the reference input divides by a zero norm. -/
theorem exA_NoZeroNorm : NoZeroNorm Real.sqrt (heap_of exA) 0 :=
  NoZeroNorm_of_hh_nonzero Real.sqrt (heap_of exA) 0 exA rfl (by decide) exA_nonzero

/-- On the reference input of the usage example, in exact real arithmetic,
`householder` leaves in `*R` a matrix whose entry `R[0][0]` is `√201`. -/
theorem householder_reference_diagonal :
    ∃ r R, householder Real.sqrt (heap_of exA) 0 = some r ∧ r.h.cells r.R = some R ∧
      R.v 0 0 = Real.sqrt 201 := by
  obtain ⟨r, R, hr, hR, -, h00⟩ :=
    householder_diagonal (heap_of exA) 0 exA rfl (by decide) (by decide) exA_NoZeroNorm
  refine ⟨r, R, hr, hR, ?_⟩
  have hpos : exA.v 0 0 > 0 := by simp [exA, mat_of_rows]
  have hm : exA.m = 5 := rfl
  have hs : sumsq (fun i => exA.v i 0) exA.m = 201 := by
    rw [hm]
    simp only [sumsq, List.range_succ, List.range_zero, List.nil_append, List.foldl_append,
      List.foldl_cons, List.foldl_nil]
    simp [exA, mat_of_rows]
    norm_num
  rw [if_pos hpos, hs] at h00
  exact h00

/-! ## Steps that divide by zero and steps that do not -/

/-- C1 (the code breaks it): the real 2 × 1 matrix with the column (3, 4) has
`M ≥ 2`, `N ≥ 1` and its run divides by no zero norm, yet `householder` hands
back no `Q` and `R`: the second loop does not run, `matrix_delete(q[0])`
releases the matrix `*Q` points to, and `matrix_mul(*Q, m)` reads it. -/
theorem householder_reconstruction_fails :
    2 ≤ exR.m ∧ 1 ≤ exR.n ∧ NoZeroNorm Real.sqrt (heap_of exR) 0 ∧
      householder Real.sqrt (heap_of exR) 0 = none := by
  refine ⟨by decide, by decide, ?_, ?_⟩
  · refine NoZeroNorm_of_hh_nonzero Real.sqrt (heap_of exR) 0 exR rfl (by decide) ?_
    refine hh_nonzero_one_step exR (by decide) 1 (by decide) (by decide) (by decide) ?_
    simp [exR, mat_of_rows]
  · exact householder_none_of_steps_le_one Real.sqrt (heap_of exR) 0 exR rfl (by decide)
      (by decide)

/-- C2 (the code breaks it): on the real 2 × 2 matrix with the rows (3, 1) and
(4, 2), with `M ≥ 2`, `N ≥ 1` and no division by a zero norm, `householder`
hands back no `Q`: it reads `*Q` after `matrix_delete(q[0])` has released it. -/
theorem householder_orthogonal_fails :
    2 ≤ exR22.m ∧ 1 ≤ exR22.n ∧ NoZeroNorm Real.sqrt (heap_of exR22) 0 ∧
      householder Real.sqrt (heap_of exR22) 0 = none := by
  refine ⟨by decide, by decide, ?_, ?_⟩
  · refine NoZeroNorm_of_hh_nonzero Real.sqrt (heap_of exR22) 0 exR22 rfl (by decide) ?_
    refine hh_nonzero_one_step exR22 (by decide) 1 (by decide) (by decide) (by decide) ?_
    simp [exR22, mat_of_rows]
  · exact householder_none_of_steps_le_one Real.sqrt (heap_of exR22) 0 exR22 rfl (by decide)
      (by decide)

/-- C3 (the code breaks it): on the real 3 × 1 matrix with the column
(3, 4, 12), with `M ≥ 2`, `N ≥ 1` and no division by a zero norm, `householder`
hands back no `R`: `matrix_mul(*Q, m)`, which is to produce it, reads `*Q`
after `matrix_delete(q[0])` has released it. -/
theorem householder_upper_triangular_fails :
    2 ≤ exR31.m ∧ 1 ≤ exR31.n ∧ NoZeroNorm Real.sqrt (heap_of exR31) 0 ∧
      householder Real.sqrt (heap_of exR31) 0 = none := by
  refine ⟨by decide, by decide, ?_, ?_⟩
  · refine NoZeroNorm_of_hh_nonzero Real.sqrt (heap_of exR31) 0 exR31 rfl (by decide) ?_
    refine hh_nonzero_one_step exR31 (by decide) 1 (by decide) (by decide) (by decide) ?_
    simp [exR31, mat_of_rows]
  · exact householder_none_of_steps_le_one Real.sqrt (heap_of exR31) 0 exR31 rfl (by decide)
      (by decide)

/-- C4 (the code breaks it): on the 2 × 1 matrix of rationals with the column
(7, 24), with `M ≥ 2` and `N ≥ 1`, `householder` hands back no matrices of any
shape: it reads `*Q` after `matrix_delete(q[0])` has released it. -/
theorem householder_shape_fails :
    2 ≤ ex21.m ∧ 1 ≤ ex21.n ∧ householder Rat.sqrt (heap_of ex21) 0 = none :=
  ⟨by decide, by decide,
    householder_none_of_steps_le_one Rat.sqrt (heap_of ex21) 0 ex21 rfl (by decide) (by decide)⟩

/-- C5 (the code breaks it): `householder` fails on the matrix with the single
row (5, 1, 2), where `*Q = q[0]` reads a slot that was never assigned, and on the
matrix with the single column (7, 24, 0), where it reads `*Q` after
`matrix_delete(q[0])` has released it. -/
theorem householder_degenerate_fails :
    ex13.m = 1 ∧ householder Rat.sqrt (heap_of ex13) 0 = none ∧
      ex31.n = 1 ∧ householder Rat.sqrt (heap_of ex31) 0 = none :=
  ⟨rfl, householder_none_of_steps_le_one Rat.sqrt (heap_of ex13) 0 ex13 rfl (by decide)
      (by decide),
    rfl, householder_none_of_steps_le_one Rat.sqrt (heap_of ex31) 0 ex31 rfl (by decide)
      (by decide)⟩

/-- C6: when `x.n = y.m`, `matrix_mul x y` is a matrix of shape `x.m × y.n` whose
entry `(i, j)` is the sum over `k = 0 .. x.n - 1` of `x[i][k] * y[k][j]`, accumulated
from 0 in increasing order of `k`. -/
theorem matrix_mul_entries {K : Type} [Zero K] [Add K] [Mul K] (x y : mat K)
    (h : x.n = y.m) :
    ∃ r, matrix_mul x y = some r ∧ r.m = x.m ∧ r.n = y.n ∧
      ∀ i j, i < x.m → j < y.n →
        r.v i j = (List.range x.n).foldl (fun acc k => acc + x.v i k * y.v k j) 0 := by
  refine ⟨_, matrix_mul_eq x y h, rfl, rfl, ?_⟩
  intro i j hi hj
  simp only [if_pos (And.intro hi hj), dot_upto]

/-- The entry formula applies to the product of the 2 × 3 and the 3 × 3 example. -/
theorem matrix_mul_entries_witness :
    ∃ r, matrix_mul ex23 ex33 = some r ∧ r.m = ex23.m ∧ r.n = ex33.n ∧
      ∀ i j, i < ex23.m → j < ex33.n →
        r.v i j = (List.range ex23.n).foldl (fun acc k => acc + ex23.v i k * ex33.v k j) 0 :=
  matrix_mul_entries ex23 ex33 rfl

/-- C7: `matrix_mul x y` returns no matrix exactly when `x.n ≠ y.m`; in particular
the product of a 2 × 3 matrix and a 4 × 2 matrix is refused. -/
theorem matrix_mul_none_iff {K : Type} [Zero K] [Add K] [Mul K] (x y : mat K)
    (a b : Nat → Nat → K) :
    (matrix_mul x y = none ↔ x.n ≠ y.m) ∧
      matrix_mul (⟨2, 3, a⟩ : mat K) (⟨4, 2, b⟩ : mat K) = none := by
  constructor
  · by_cases h : x.n = y.m
    · simp [matrix_mul_eq x y h, h]
    · simp [matrix_mul, h]
  · simp [matrix_mul]

/-- C8: for `d ≤ min x.m x.n`, `matrix_minor x d` has the shape of `x`, and its
entry `(i, j)` is 1 if `i = j < d`, `x[i][j]` if `d ≤ i` and `d ≤ j`, and 0 in every
other position. -/
theorem matrix_minor_entries {K : Type} [Zero K] [One K] (x : mat K) (d : Nat)
    (_hd : d ≤ min x.m x.n) :
    (matrix_minor x d).m = x.m ∧ (matrix_minor x d).n = x.n ∧
      ∀ i j, i < x.m → j < x.n →
        (matrix_minor x d).v i j =
          if i = j ∧ i < d then 1 else if d ≤ i ∧ d ≤ j then x.v i j else 0 := by
  rw [matrix_minor_eq]
  refine ⟨rfl, rfl, ?_⟩
  intro i j hi hj
  simp only
  split_ifs <;> first | rfl | omega

/-- The entry formula applies to the second minor of the 3 × 3 example. -/
theorem matrix_minor_entries_witness :
    (matrix_minor ex33 2).m = ex33.m ∧ (matrix_minor ex33 2).n = ex33.n ∧
      ∀ i j, i < ex33.m → j < ex33.n →
        (matrix_minor ex33 2).v i j =
          if i = j ∧ i < 2 then 1 else if 2 ≤ i ∧ 2 ≤ j then ex33.v i j else 0 :=
  matrix_minor_entries ex33 2 (by decide)

/-- C9: on a square matrix `matrix_transpose` keeps the shape and makes the new
entry `(i, j)` the old entry `(j, i)`. -/
theorem matrix_transpose_square {K : Type} (x : mat K) (h : x.m = x.n) :
    (matrix_transpose x).m = x.m ∧ (matrix_transpose x).n = x.n ∧
      ∀ i j, i < x.n → j < x.n → (matrix_transpose x).v i j = x.v j i := by
  rw [matrix_transpose_eq]
  refine ⟨rfl, rfl, ?_⟩
  intro i j hi hj
  simp only
  rw [if_pos ⟨by omega, by omega⟩]

/-- The transposition formula applies to the 3 × 3 example. -/
theorem matrix_transpose_square_witness :
    (matrix_transpose ex33).m = ex33.m ∧ (matrix_transpose ex33).n = ex33.n ∧
      ∀ i j, i < ex33.n → j < ex33.n → (matrix_transpose ex33).v i j = ex33.v j i :=
  matrix_transpose_square ex33 rfl

/-- C10, as stated, fails: on the 2 × 3 matrix `ex23` (rows ≠ columns)
`matrix_transpose` returns normally and has changed the cells `(0, 1)` and `(1, 0)`. -/
theorem matrix_transpose_rect_modifies :
    ex23.m ≠ ex23.n ∧ ex23.v 0 1 = 2 ∧ ex23.v 1 0 = 4 ∧
      (matrix_transpose ex23).v 0 1 = 4 ∧ (matrix_transpose ex23).v 1 0 = 2 := by
  decide

/-- C10, amended: `matrix_transpose` tests no shape and reports no error; on a
matrix with fewer rows than columns it keeps the shape, mirrors the leading
`m × m` block and leaves every other entry as it was. -/
theorem matrix_transpose_wide {K : Type} (x : mat K) (_h : x.m < x.n) :
    (matrix_transpose x).m = x.m ∧ (matrix_transpose x).n = x.n ∧
      ∀ i j, i < x.m → j < x.n →
        (matrix_transpose x).v i j = if j < x.m then x.v j i else x.v i j := by
  rw [matrix_transpose_eq]
  refine ⟨rfl, rfl, ?_⟩
  intro i j hi hj
  simp only
  split_ifs <;> first | rfl | omega

/-- The formula for wide matrices applies to the 2 × 3 example. -/
theorem matrix_transpose_wide_witness :
    (matrix_transpose ex23).m = ex23.m ∧ (matrix_transpose ex23).n = ex23.n ∧
      ∀ i j, i < ex23.m → j < ex23.n →
        (matrix_transpose ex23).v i j = if j < ex23.m then ex23.v j i else ex23.v i j :=
  matrix_transpose_wide ex23 (by decide)

/-- C11: `vmul(v, n)` is an `n × n` matrix whose entry `(i, j)` is `-2·v[i]·v[j]`
when `i ≠ j` and `1 - 2·v[i]·v[i]` when `i = j`: the matrix `I - 2·v·vᵗ`. -/
theorem vmul_entries {B K : Type} [Ring K] (mem : store B K) (v : B) (n : Nat) :
    (vmul mem v n).m = n ∧ (vmul mem v n).n = n ∧
      ∀ i j, i < n → j < n →
        (vmul mem v n).v i j =
          if i = j then 1 - 2 * mem v i * mem v i else -2 * mem v i * mem v j := by
  rw [vmul_eq]
  refine ⟨rfl, rfl, ?_⟩
  intro i j hi hj
  simp only [if_pos (And.intro hi hj)]
  by_cases hij : i = j
  · subst hij
    simp only [if_true]
    rw [neg_mul, neg_mul, neg_add_eq_sub]
  · simp only [if_neg hij]

/-- The entry formula of `vmul` applies to the vector (3/5, 4/5). -/
theorem vmul_entries_witness :
    (vmul unit_store () 2).m = 2 ∧ (vmul unit_store () 2).n = 2 ∧
      ∀ i j, i < 2 → j < 2 →
        (vmul unit_store () 2).v i j =
          if i = j then 1 - 2 * unit_store () i * unit_store () i
          else -2 * unit_store () i * unit_store () j :=
  vmul_entries unit_store () 2

/-- C12: in exact arithmetic, when the squares of `v[0] .. v[n-1]` sum to 1, the
matrix `H = vmul(v, n)` is symmetric and `matrix_mul(H, H)` is the `n × n`
identity. -/
theorem vmul_involution {B K : Type} [CommRing K] (mem : store B K) (v : B) (n : Nat)
    (h1 : sumsq (mem v) n = 1) :
    (∀ i j, i < n → j < n → (vmul mem v n).v i j = (vmul mem v n).v j i) ∧
      ∃ P, matrix_mul (vmul mem v n) (vmul mem v n) = some P ∧ P.m = n ∧ P.n = n ∧
        ∀ i j, i < n → j < n → P.v i j = if i = j then 1 else 0 := by
  have hv : vmul mem v n = reflector n (mem v) := by
    rw [vmul_eq]; rfl
  rw [hv]
  have hT := reflM_transpose (fun i : Fin n => mem v i.val)
  have hH := reflM_mul_self (fun i : Fin n => mem v i.val) (by rw [← sumsq_eq_sum]; exact h1)
  rw [← toM_reflector] at hT hH
  constructor
  · intro i j hi hj
    have := congrFun (congrFun hT ⟨j, hj⟩) ⟨i, hi⟩
    simpa [toM, Matrix.transpose_apply] using this
  · have hmul := matrix_mul_eq (reflector n (mem v)) (reflector n (mem v)) rfl
    obtain ⟨h2, h3, h4⟩ := toM_matrix_mul n n n (reflector n (mem v)) (reflector n (mem v)) _
      rfl rfl rfl rfl hmul
    refine ⟨_, hmul, h2, h3, ?_⟩
    intro i j hi hj
    have := congrFun (congrFun h4 ⟨i, hi⟩) ⟨j, hj⟩
    rw [hH, Matrix.one_apply] at this
    simpa [toM, Fin.ext_iff] using this

/-- The vector (3/5, 4/5) has unit length, so the involution theorem applies to it. -/
theorem vmul_involution_witness :
    (∀ i j, i < 2 → j < 2 → (vmul unit_store () 2).v i j = (vmul unit_store () 2).v j i) ∧
      ∃ P, matrix_mul (vmul unit_store () 2) (vmul unit_store () 2) = some P ∧
        P.m = 2 ∧ P.n = 2 ∧ ∀ i j, i < 2 → j < 2 → P.v i j = if i = j then 1 else 0 :=
  vmul_involution unit_store () 2 (by
    simp [sumsq, unit_store, List.range_succ]
    norm_num)

/-- C13: `vmadd(a, b, s, c, n)` leaves `c[i] = a[i] + s·b[i]` for every `i < n`,
from the values `a` and `b` held before the call, whichever of the buffers `a`,
`b`, `c` are the same; in particular when `c` is `b`, as in the call
`vmadd(x, e, a, e, m->m)` of `householder`, and when `c` is `a`. -/
theorem vmadd_entries {B K : Type} [DecidableEq B] [Add K] [Mul K] (mem : store B K)
    (a b c : B) (s : K) (n : Nat) :
    (∀ i, i < n → vmadd mem a b s c n c i = mem a i + s * mem b i) ∧
      (∀ i, i < n → vmadd mem a b s b n b i = mem a i + s * mem b i) ∧
      (∀ i, i < n → vmadd mem a b s a n a i = mem a i + s * mem b i) := by
  refine ⟨?_, ?_, ?_⟩ <;>
  · intro i hi
    rw [vmadd_eq]
    simp only [hi, and_self, if_true]

/-- The formula of `vmadd` applies to a store of naturals, with `c` the buffer `b`. -/
theorem vmadd_entries_witness :
    (∀ i, i < 3 → vmadd nat_store true false 2 false 3 false i
        = nat_store true i + 2 * nat_store false i) ∧
      (∀ i, i < 3 → vmadd nat_store true false 2 false 3 false i
        = nat_store true i + 2 * nat_store false i) ∧
      (∀ i, i < 3 → vmadd nat_store true false 2 true 3 true i
        = nat_store true i + 2 * nat_store false i) :=
  vmadd_entries nat_store true false false 2 3

/-- C15 (the code breaks it): the 2 × 3 matrix of rationals with the rows
(1, 2, 3) and (4, 5, 6) has `M ≥ 2`, `N ≥ 1` and `r = min(N, M-1) = 1`; the first
loop builds the one reflector `q[0]`, a 2 × 2 matrix, but `householder` hands
back no `R` and no `Q`: the second loop does not run, `matrix_delete(q[0])`
releases the matrix `*Q` points to, and `matrix_mul(*Q, m)` reads it. -/
theorem householder_product_fails :
    2 ≤ exQ23.m ∧ 1 ≤ exQ23.n ∧ householder_steps exQ23 = 1 ∧
      (∃ st q0 Q0, householder_loop Rat.sqrt 0 (heap_of exQ23) 1 = some st ∧
        st.q 0 = some q0 ∧ st.h.cells q0 = some Q0 ∧ Q0.m = 2 ∧ Q0.n = 2) ∧
      householder Rat.sqrt (heap_of exQ23) 0 = none := by
  refine ⟨by decide, by decide, by decide, ?_, ?_⟩
  · obtain ⟨st, -, q0, Q0, -, -, -, hl, hq0, hc, hm, hn, -⟩ :=
      householder_trace_one_step Rat.sqrt (heap_of exQ23) 0 exQ23 rfl (by decide) (by decide)
    exact ⟨st, q0, Q0, hl, hq0, hc, hm, hn⟩
  · exact householder_none_of_steps_le_one Rat.sqrt (heap_of exQ23) 0 exQ23 rfl (by decide)
      (by decide)

/-- C16 (the code breaks it): on the 2 × 2 matrix of rationals with the rows
(3, 1) and (4, 2), with `M ≥ 2` and `N ≥ 1`, the statements of `householder`
succeed up to `matrix_delete(q[0])`; the second loop has not run, so `*Q` is
still `q[0]`, and the next call `matrix_mul(*Q, m)` is made on a released
matrix: its left operand has no dimensions to match, and `householder` fails. -/
theorem householder_calls_fail :
    2 ≤ exQ22.m ∧ 1 ≤ exQ22.n ∧
      (∃ st h1 q0 h2 R h4,
        householder_loop Rat.sqrt 0 (heap_of exQ22) (householder_steps exQ22) = some st ∧
        matrix_delete st.h st.z = some h1 ∧ st.q 0 = some q0 ∧
        h1.mul q0 0 = some (h2, R) ∧
        householder_acc st.q h2 (householder_steps exQ22 - 1) = some (h2, q0) ∧
        matrix_delete h2 q0 = some h4 ∧ h4.cells q0 = none ∧ h4.mul q0 0 = none) ∧
      householder Rat.sqrt (heap_of exQ22) 0 = none := by
  refine ⟨by decide, by decide, ?_, ?_⟩
  · obtain ⟨st, h1, q0, -, h2, R, h4, hl, hq0, -, -, -, hd1, hm2, hacc, hd4, hz4, hmul⟩ :=
      householder_trace_one_step Rat.sqrt (heap_of exQ22) 0 exQ22 rfl (by decide) (by decide)
    exact ⟨st, h1, q0, h2, R, h4, hl, hd1, hq0, hm2, hacc, hd4, hz4, hmul⟩
  · exact householder_none_of_steps_le_one Rat.sqrt (heap_of exQ22) 0 exQ22 rfl (by decide)
      (by decide)

/-- C17 (the code breaks it): the real 2 × 3 matrix with the rows (3, 1, 2) and
(4, 2, 1) has `M ≥ 2`, `N ≥ 1`, `min(N, M-1) = 1` and its run divides by no zero
norm, yet `householder` hands back no `R` whose entry `R[0][0]` could be read:
`matrix_mul(*Q, m)`, which is to produce it, reads `*Q` after
`matrix_delete(q[0])` has released it. -/
theorem householder_diagonal_fails :
    2 ≤ exR23.m ∧ 1 ≤ exR23.n ∧ 0 < householder_steps exR23 ∧
      NoZeroNorm Real.sqrt (heap_of exR23) 0 ∧
      householder Real.sqrt (heap_of exR23) 0 = none := by
  refine ⟨by decide, by decide, by decide, ?_, ?_⟩
  · refine NoZeroNorm_of_hh_nonzero Real.sqrt (heap_of exR23) 0 exR23 rfl (by decide) ?_
    refine hh_nonzero_one_step exR23 (by decide) 1 (by decide) (by decide) (by decide) ?_
    simp [exR23, mat_of_rows]
  · exact householder_none_of_steps_le_one Real.sqrt (heap_of exR23) 0 exR23 rfl (by decide)
      (by decide)

/-- C19: on a square matrix, `matrix_transpose` applied twice gives back the shape
and every entry of the original matrix. -/
theorem matrix_transpose_twice {K : Type} (x : mat K) (_h : x.m = x.n) :
    (matrix_transpose (matrix_transpose x)).m = x.m ∧
      (matrix_transpose (matrix_transpose x)).n = x.n ∧
      ∀ i j, i < x.m → j < x.n →
        (matrix_transpose (matrix_transpose x)).v i j = x.v i j := by
  rw [matrix_transpose_eq (matrix_transpose x), matrix_transpose_eq x]
  refine ⟨rfl, rfl, ?_⟩
  intro i j _ _
  simp only
  split_ifs <;> first | rfl | omega

/-- The involution applies to the 3 × 3 example. -/
theorem matrix_transpose_twice_witness :
    (matrix_transpose (matrix_transpose ex33)).m = ex33.m ∧
      (matrix_transpose (matrix_transpose ex33)).n = ex33.n ∧
      ∀ i j, i < ex33.m → j < ex33.n →
        (matrix_transpose (matrix_transpose ex33)).v i j = ex33.v i j :=
  matrix_transpose_twice ex33 rfl

/-- C20: `matrix_minor(x, 0)` has the shape and the entries of `x`; the working
matrix `z` of `householder` starts as the input `m`, so the minor taken in the
first step is a copy of the input. -/
theorem matrix_minor_zero {K : Type} [LinearOrderedField K] (sqrt : K → K) (x : mat K)
    (h : heap K) (pm : Nat) (hx : h.cells pm = some x) :
    ((matrix_minor x 0).m = x.m ∧ (matrix_minor x 0).n = x.n ∧
      ∀ i j, i < x.m → j < x.n → (matrix_minor x 0).v i j = x.v i j) ∧
    ∃ st, householder_loop sqrt pm h 0 = some st ∧ st.z = pm ∧
      st.h.minor st.z 0 = some (st.h.alloc (matrix_minor x 0)) := by
  refine ⟨?_, _, rfl, rfl, ?_⟩
  · rw [matrix_minor_eq]
    refine ⟨rfl, rfl, ?_⟩
    intro i j hi hj
    simp only
    split_ifs <;> first | rfl | omega
  · simp only [heap.minor, heap.load, hx, Option.map_some']

/-- The copy property applies to the 2 × 1 example. -/
theorem matrix_minor_zero_witness :
    ((matrix_minor ex21 0).m = ex21.m ∧ (matrix_minor ex21 0).n = ex21.n ∧
      ∀ i j, i < ex21.m → j < ex21.n → (matrix_minor ex21 0).v i j = ex21.v i j) ∧
    ∃ st, householder_loop Rat.sqrt 0 (heap_of ex21) 0 = some st ∧ st.z = 0 ∧
      st.h.minor st.z 0 = some (st.h.alloc (matrix_minor ex21 0)) :=
  matrix_minor_zero Rat.sqrt ex21 (heap_of ex21) 0 rfl

end QR
